import Mathlib

/-!
# Verification of schedulib's single-machine scheduling core

A shallow embedding of the library's single-machine scheduling algorithms
(`src/schedule.rs`, `src/single_machine.rs`): the `JobRun`/`JobSchedule` data
model, Schrage's heuristic, critical-path analysis and Carlier's
branch-and-bound driver, together with theorems about them.

Modelling conventions:
* `Time` is `Int` (the source's `isize`; the spec's "signed integer" time).
* Per-job arrays are `List Time` indexed by job id; `idx` is slice indexing
  (out-of-range reads, which panic in the source, never occur on the inputs
  covered by the theorems).
* Rust's `BinaryHeap` pops are modelled by extracting the maximum
  (resp. minimum for the `Reverse` heap) under the same lexicographic order
  on the pushed keys; equal keys denote structurally identical entries, so
  the extraction order of the heap is fully determined.
* The source's unbounded `while` loops are modelled by structurally
  recursive functions with an explicit fuel argument; `carlier`'s
  branch-and-bound loop takes its fuel as a parameter and a fuel-exhausted
  run is the distinguished value `CarlierOut.timeout`.
* The sentinels `Time::MAX` / `Time::MIN` (the incumbent lateness before any
  schedule is found, and the root's inherited lower bound) are modelled as
  genuine +infinity / -infinity via `Option Time`, which is their role in
  the source (they are only compared and maxed, never added).
* Operations that panic in the source (`unwrap`, `expect`) return `Option`;
  `none` is a panic.
-/

abbrev Time := Int

abbrev JobId := Nat

/-- Slice indexing `l[j]` on a per-job array (`schedule.rs` uses `&[Time]`).
Out-of-range access panics in Rust; theorems only use in-range indices. -/
def idx (l : List Time) (j : JobId) : Time := l.getD j 0

/-- `JobRun` from `schedule.rs`: a job execution with start time and duration. -/
structure JobRun where
  time : Time
  job : JobId
  duration : Time
deriving DecidableEq, Repr

def dummyRun : JobRun := ⟨0, 0, 0⟩

/-- The single-machine schedule type of `schedule.rs` (named `JobSchedule` in
`single_machine.rs`): a list of job runs sorted by time. -/
structure JobSchedule where
  schedule : List JobRun
deriving DecidableEq, Repr

/-- `max_lateness` / `lateness` from `schedule.rs`: maximum of
`run.time + run.duration - due_times[run.job]` over all runs.  The source
panics (`expect("MachineSchedule is empty")`) on an empty schedule: `none`. -/
def JobSchedule.lateness (s : JobSchedule) (due_times : List Time) : Option Time :=
  (s.schedule.map (fun run => run.time + run.duration - idx due_times run.job)).max?

/-- `makespan` from `schedule.rs`. -/
def JobSchedule.makespan (s : JobSchedule) : Time :=
  (s.schedule.getLast?.map (fun run => run.time + run.duration)).getD 0

/-- The schedule-building recursion of `from_order_ptimes_releasetimes`
(`schedule.rs`): job `j` starts at `max t (release_times[j])` where `t` is the
previous finishing time. -/
def buildRuns (ptimes release_times : List Time) : List JobId → Time → List JobRun
  | [], _ => []
  | j :: rest, t =>
    let start := max t (idx release_times j)
    { time := start, job := j, duration := idx ptimes j }
      :: buildRuns ptimes release_times rest (start + idx ptimes j)

/-- `from_order_ptimes_releasetimes` (`schedule.rs`), called
`from_order_durations_releasetimes` in `single_machine.rs`. -/
def from_order_durations_releasetimes (order : List JobId)
    (ptimes release_times : List Time) : JobSchedule :=
  ⟨buildRuns ptimes release_times order 0⟩

/-! ## Schrage's heuristic (`single_machine.rs`, `schrage`) -/

/-- The key pushed into Schrage's ready heap:
`(-due_times[job], processing_times[job], job)`. -/
def readyKey (ptimes due_times : List Time) (j : JobId) : Int × Int × Nat :=
  (-(idx due_times j), idx ptimes j, j)

/-- Lexicographic order on ready-heap keys (the derived `Ord` of the tuple). -/
def keyLe : Int × Int × Nat → Int × Int × Nat → Bool
  | (a₁, b₁, c₁), (a₂, b₂, c₂) =>
    a₁ < a₂ || (a₁ = a₂ && (b₁ < b₂ || (b₁ = b₂ && c₁ ≤ c₂)))

/-- `BinaryHeap::pop` on the ready heap: extract a maximal element under
`keyLe` (job ids make all keys distinct, so the maximum is unique). -/
def popMax : List (Int × Int × Nat) →
    Option ((Int × Int × Nat) × List (Int × Int × Nat))
  | [] => none
  | x :: xs =>
    match popMax xs with
    | none => some (x, [])
    | some (m, rest) => if keyLe x m then some (m, x :: rest) else some (x, xs)

/-- Insertion into the pending list, ascending by `(release_times[j], j)`.
The source sorts descending by release time (`sort_unstable_by_key`, ties in
unspecified order) and pops from the tail; we keep the ascending mirror and
fix ties by job id, which yields the same pending-pop behaviour since all
tied jobs are released together. -/
def insertPending (release_times : List Time) (j : JobId) : List JobId → List JobId
  | [] => [j]
  | k :: ks =>
    if idx release_times j < idx release_times k
        || (idx release_times j = idx release_times k && j ≤ k) then
      j :: k :: ks
    else
      k :: insertPending release_times j ks

def sortPending (release_times : List Time) : List JobId → List JobId
  | [] => []
  | j :: js => insertPending release_times j (sortPending release_times js)

/-- The main loop of `schrage`.  One fuel unit is one pop from the ready heap;
the source's idle iteration (empty ready heap: jump `t` to the next release)
is fused with the pop that necessarily follows it.  `schrage` supplies enough
fuel for the loop to run to completion. -/
def schrageLoop (ptimes release_times due_times : List Time) :
    Nat → List JobId → List (Int × Int × Nat) → Time → List JobId
  | 0, _, _, _ => []
  | fuel + 1, pending, ready, t =>
    -- move every pending job with release_times[j] <= t into the ready heap
    let rel := pending.takeWhile (fun j => idx release_times j ≤ t)
    let pend1 := pending.dropWhile (fun j => idx release_times j ≤ t)
    let ready1 := ready ++ rel.map (readyKey ptimes due_times)
    match popMax ready1 with
    | some (m, rest) =>
      m.2.2 :: schrageLoop ptimes release_times due_times fuel pend1 rest
        (t + idx ptimes m.2.2)
    | none =>
      match pend1 with
      | [] => []
      | j :: _ =>
        -- no job is ready: jump t to the next release time, transfer, pop
        let t2 := idx release_times j
        let rel2 := pend1.takeWhile (fun j' => idx release_times j' ≤ t2)
        let pend2 := pend1.dropWhile (fun j' => idx release_times j' ≤ t2)
        match popMax (rel2.map (readyKey ptimes due_times)) with
        | some (m, rest) =>
          m.2.2 :: schrageLoop ptimes release_times due_times fuel pend2 rest
            (t2 + idx ptimes m.2.2)
        | none => []

/-- `schrage` (`single_machine.rs`): Schrage's heuristic for `1|r_j|L_max`.
The loop performs at most one heap pop per scheduled job plus one idle jump
per iteration, so `2n + 1` fuel always suffices. -/
def schrage (processing_times release_times due_times : List Time) : JobSchedule :=
  from_order_durations_releasetimes
    (schrageLoop processing_times release_times due_times
      (2 * processing_times.length + 1)
      (sortPending release_times (List.range processing_times.length)) [] 0)
    processing_times release_times

/-! ## Critical-path analysis (`single_machine.rs`, `critical_path`) -/

/-- Lateness of a single run w.r.t. given due times. -/
def runLateness (due_times : List Time) (run : JobRun) : Time :=
  run.time + run.duration - idx due_times run.job

/-- Index and value of the *last* maximal element of a list (Rust's
`Iterator::max_by_key` returns the last element when several are equally
maximum); `none` on the empty list. -/
def argmaxLast : List Time → Option (Nat × Time)
  | [] => none
  | x :: xs =>
    match argmaxLast xs with
    | none => some (0, x)
    | some (i, v) => if x > v then some (0, x) else some (i + 1, v)

/-- `critical_path` (`single_machine.rs`): returns `(a, p)` where `p` is the
index of the run of maximum lateness (`max_by_key`: last maximum) and `a` the
largest index `≤ p` preceded by idle time, or `0`.  The source panics
(`expect("job list is empty")`) on an empty schedule: `none`. -/
def critical_path (s : JobSchedule) (due_times : List Time) : Option (Nat × Nat) :=
  match argmaxLast (s.schedule.map (runLateness due_times)) with
  | none => none
  | some (p, _) =>
    let a := (((List.range' 1 p).reverse).find? (fun i =>
      (s.schedule.getD i dummyRun).time >
        (s.schedule.getD (i - 1) dummyRun).time
          + (s.schedule.getD (i - 1) dummyRun).duration)).getD 0
    some (a, p)

/-! ## Carlier's branch-and-bound (`single_machine.rs`, `carlier`) -/

/-- `CarlierNode`: a subproblem instance with tightened release/due times. -/
structure CarlierNode where
  release_times : List Time
  due_times : List Time
deriving DecidableEq, Repr

/-- `CarlierResult`: one iteration's outcome.  `subproblems = none` means the
schedule is optimal for the node. -/
structure CarlierResult where
  schedule : JobSchedule
  lower_bound : Time
  subproblems : Option (CarlierNode × CarlierNode)
deriving DecidableEq, Repr

/-- `x > ub + y`, where `ub` is the incumbent upper bound and `none` is the
initial `Time::MAX` sentinel (+infinity): the comparison is then false. -/
def gtUbAdd (x : Time) (ub : Option Time) (y : Time) : Bool :=
  match ub with
  | none => false
  | some u => decide (x > u + y)

/-- `x > ub - y` with `ub` as in `gtUbAdd`. -/
def gtUbSub (x : Time) (ub : Option Time) (y : Time) : Bool :=
  match ub with
  | none => false
  | some u => decide (x > u - y)

/-- One step of the ascent-tightening loop of `carlier_iteration`
(`single_machine.rs` lines 242-265): a job that cannot fit inside the
critical set has its release time raised (must follow the set) or else its
due time lowered (must precede it). -/
def ascentStep (ptimes : List Time) (ub : Option Time)
    (crit_bound crit_duration crit_min_release crit_max_due : Time)
    (rd : List Time × List Time) (job : JobId) : List Time × List Time :=
  let rt := rd.1
  let dt := rd.2
  if gtUbSub (idx ptimes job) ub crit_bound then
    -- this job cannot be scheduled inside the critical set
    if gtUbAdd (idx rt job + idx ptimes job + crit_duration) ub crit_max_due then
      -- this job has to be scheduled after the critical set
      (rt.set job (max (idx rt job) (crit_min_release + crit_duration)), dt)
    else if gtUbAdd (crit_min_release + crit_duration + idx ptimes job) ub
        (idx dt job) then
      -- this job has to be scheduled before the critical set
      (rt, dt.set job (min (idx dt job) (crit_max_due - crit_duration)))
    else (rt, dt)
  else (rt, dt)

/-- The ascent-tightening loop, folded over the jobs at the traversed
schedule positions. -/
def ascentFold (ptimes : List Time) (ub : Option Time)
    (crit_bound crit_duration crit_min_release crit_max_due : Time)
    (jobs : List JobId) (rd : List Time × List Time) : List Time × List Time :=
  jobs.foldl
    (ascentStep ptimes ub crit_bound crit_duration crit_min_release crit_max_due)
    rd

/-- The schedule positions traversed by the ascent loop:
`(a..=c).chain(p+1..sched.len())`, mapped to their jobs. -/
def ascentJobs (sched : List JobRun) (a c p : Nat) : List JobId :=
  ((List.range' a (c + 1 - a)) ++ (List.range' (p + 1) (sched.length - (p + 1)))).map
    (fun i => (sched.getD i dummyRun).job)

/-- `carlier_iteration` (`single_machine.rs`): run Schrage on the node's
tightened times, find the critical path, either report optimality or tighten
and branch into two subproblems.  `none` models the panics on an empty
schedule / empty critical set (unreachable for non-empty instances). -/
def carlier_iteration (processing_times release_times due_times : List Time)
    (upper_bound : Option Time) : Option CarlierResult :=
  let schedule := schrage processing_times release_times due_times
  match critical_path schedule due_times with
  | none => none
  | some (a, p) =>
    let sched := schedule.schedule
    let pjob := (sched.getD p dummyRun).job
    -- find last job on the critical path with a later due date than p
    match ((List.range' a (p - a)).reverse).find? (fun i =>
        idx due_times (sched.getD i dummyRun).job > idx due_times pjob) with
    | none =>
      -- schedule is already optimal
      match schedule.lateness due_times with
      | none => none
      | some l => some { schedule := schedule, lower_bound := l, subproblems := none }
    | some c =>
      let cjob := (sched.getD c dummyRun).job
      -- the critical set: schedule positions c+1..=p
      let critRuns := (sched.drop (c + 1)).take (p - c)
      let crit_duration : Time := (critRuns.map (·.duration)).foldl (· + ·) 0
      match (critRuns.map (fun run => idx release_times run.job)).min? with
      | none => none
      | some crit_min_release =>
        let crit_max_due := idx due_times pjob
        let crit_bound := crit_duration + crit_min_release - crit_max_due
        let rd := ascentFold processing_times upper_bound crit_bound crit_duration
          crit_min_release crit_max_due (ascentJobs sched a c p)
          (release_times, due_times)
        let rt := rd.1
        let dt := rd.2
        let lower_bound := max crit_bound
          (crit_duration + min crit_min_release (idx rt cjob) - idx dt cjob)
        -- subproblem where we force c to be processed before all of crit_set
        let subproblem1 : CarlierNode :=
          ⟨rt, dt.set cjob (min (idx dt cjob) (idx dt pjob - crit_duration))⟩
        -- subproblem where we force c to be processed after all of crit_set
        let subproblem2 : CarlierNode :=
          ⟨rt.set cjob (max (idx rt cjob) (crit_min_release + crit_duration)), dt⟩
        some { schedule := schedule, lower_bound := lower_bound,
               subproblems := some (subproblem1, subproblem2) }

/-! The driver's priority queue: a min-heap of `Reverse((lower_bound, node))`
pairs, where the root's `Time::MIN` sentinel is -infinity (`none`).  Ordering
is lexicographic on the pair, with `CarlierNode`'s derived `Ord`
(`release_times`, then `due_times`, each `Vec<Time>` lexicographic). -/

/-- Strict lexicographic order on `Vec<Time>` (Rust's derived `Ord`). -/
def listLt : List Time → List Time → Bool
  | [], [] => false
  | [], _ :: _ => true
  | _ :: _, [] => false
  | a :: as_, b :: bs => a < b || (a = b && listLt as_ bs)

def listLe (x y : List Time) : Bool := listLt x y || x = y

def nodeLe (n₁ n₂ : CarlierNode) : Bool :=
  listLt n₁.release_times n₂.release_times
    || (n₁.release_times = n₂.release_times && listLe n₁.due_times n₂.due_times)

/-- `lb₁ < lb₂` on inherited lower bounds, `none` being -infinity. -/
def lbLt (lb₁ lb₂ : Option Time) : Bool :=
  match lb₁, lb₂ with
  | none, none => false
  | none, some _ => true
  | some _, none => false
  | some a, some b => decide (a < b)

/-- Queue ordering on `(lower_bound, node)` entries. -/
def entryLe (e₁ e₂ : Option Time × CarlierNode) : Bool :=
  lbLt e₁.1 e₂.1 || (e₁.1 = e₂.1 && nodeLe e₁.2 e₂.2)

/-- `BinaryHeap::pop` on the subproblem queue: extract a minimal
`(lower_bound, node)` entry (ties are structurally identical entries, so any
choice is the heap's). -/
def popMinQ : List (Option Time × CarlierNode) →
    Option ((Option Time × CarlierNode) × List (Option Time × CarlierNode))
  | [] => none
  | e :: es =>
    match popMinQ es with
    | none => some (e, [])
    | some (m, rest) => if entryLe e m then some (e, es) else some (m, e :: rest)

/-- `lower_bound >= best_lateness` (the popped-node pruning test); the
incumbent `none` is +infinity, an inherited bound `none` is -infinity. -/
def lbGeBest (lb : Option Time) (best : Option (Time × JobSchedule)) : Bool :=
  match lb, best with
  | some l, some (b, _) => decide (l ≥ b)
  | _, _ => false

/-- `lateness < best_lateness` (the incumbent-update test). -/
def latLtBest (lat : Time) (best : Option (Time × JobSchedule)) : Bool :=
  match best with
  | none => true
  | some (b, _) => decide (lat < b)

/-- `max(result.lower_bound, lower_bound)` with the root sentinel. -/
def lbMax (l : Time) (lb : Option Time) : Option Time :=
  match lb with
  | none => some l
  | some x => some (max l x)

/-- Outcome of a `carlier` run: a returned schedule, a panic
(`unwrap`/`expect` failure), or fuel exhaustion (the modelling artifact for
the source's unbounded loop). -/
inductive CarlierOut where
  | ok (s : JobSchedule)
  | panic
  | timeout
deriving DecidableEq, Repr

/-- `best_schedule.unwrap()` at loop exit: `none` is the unwrap panic. -/
def exitBest : Option (Time × JobSchedule) → CarlierOut
  | some (_, s) => .ok s
  | none => .panic

/-- The driver loop of `carlier`: pop the node with the smallest inherited
bound, prune or expand it, refresh the incumbent (lateness is measured with
the due times `due_times` given to `carlier`, not the node's), and push the
two children with key `max(result.lower_bound, lower_bound)`.  The loop exit
on an empty queue consumes no fuel; `timeout` only stands for an iteration
the given fuel cannot cover. -/
def carlierLoop (processing_times due_times : List Time) :
    Nat → List (Option Time × CarlierNode) → Option (Time × JobSchedule) → CarlierOut
  | 0, subproblems, best =>
    match popMinQ subproblems with
    | none => exitBest best
    | some _ => .timeout
  | fuel + 1, subproblems, best =>
    match popMinQ subproblems with
    | none => exitBest best
    | some ((lower_bound, node), rest) =>
      if lbGeBest lower_bound best then
        carlierLoop processing_times due_times fuel rest best
      else
        match carlier_iteration processing_times node.release_times
            node.due_times (best.map (·.1)) with
        | none => .panic
        | some result =>
          match result.schedule.lateness due_times with
          | none => .panic
          | some lateness =>
            let best1 := if latLtBest lateness best
              then some (lateness, result.schedule) else best
            match result.subproblems with
            | some (child1, child2) =>
              if latLtBest result.lower_bound best1 then
                let new_lower_bound := lbMax result.lower_bound lower_bound
                carlierLoop processing_times due_times fuel
                  (rest ++ [(new_lower_bound, child1), (new_lower_bound, child2)])
                  best1
              else
                carlierLoop processing_times due_times fuel rest best1
            | none =>
              carlierLoop processing_times due_times fuel rest best1

/-- `carlier` (`single_machine.rs`): Carlier's branch-and-bound algorithm for
`1|r_j|L_max`, with explicit fuel for the loop. -/
def carlier (fuel : Nat) (processing_times release_times due_times : List Time) :
    CarlierOut :=
  if processing_times = [] then
    .ok ⟨[]⟩
  else
    carlierLoop processing_times due_times fuel
      [(none, ⟨release_times, due_times⟩)] none

/-! ## Basic facts about the heap extraction functions -/

lemma keyLe_total (x y : Int × Int × Nat) : keyLe x y ∨ keyLe y x := by
  obtain ⟨a₁, b₁, c₁⟩ := x
  obtain ⟨a₂, b₂, c₂⟩ := y
  simp only [keyLe, Bool.or_eq_true, Bool.and_eq_true, decide_eq_true_eq]
  omega

lemma keyLe_trans {x y z : Int × Int × Nat} (h₁ : keyLe x y) (h₂ : keyLe y z) :
    keyLe x z := by
  obtain ⟨a₁, b₁, c₁⟩ := x
  obtain ⟨a₂, b₂, c₂⟩ := y
  obtain ⟨a₃, b₃, c₃⟩ := z
  simp only [keyLe, Bool.or_eq_true, Bool.and_eq_true, decide_eq_true_eq] at *
  omega

lemma popMax_eq_none {l : List (Int × Int × Nat)} : popMax l = none ↔ l = [] := by
  cases l with
  | nil => simp [popMax]
  | cons x xs =>
    simp only [popMax]
    cases popMax xs with
    | none => simp
    | some p =>
      obtain ⟨m, rest⟩ := p
      by_cases h : keyLe x m <;> simp [h]

lemma popMax_mem : ∀ {l : List (Int × Int × Nat)} {m rest},
    popMax l = some (m, rest) → m ∈ l := by
  intro l
  induction l with
  | nil => intro m rest h; simp [popMax] at h
  | cons x xs ih =>
    intro m rest h
    simp only [popMax] at h
    cases hx : popMax xs with
    | none => rw [hx] at h; simp at h; simp [h.1]
    | some p =>
      obtain ⟨m', rest'⟩ := p
      rw [hx] at h
      by_cases hk : keyLe x m'
      · simp [hk] at h
        right
        rw [← h.1]
        exact ih hx
      · simp [hk] at h
        simp [h.1]

lemma popMax_le : ∀ {l : List (Int × Int × Nat)} {m rest},
    popMax l = some (m, rest) → ∀ x ∈ l, keyLe x m := by
  intro l
  induction l with
  | nil => intro m rest h; simp [popMax] at h
  | cons x xs ih =>
    intro m rest h y hy
    simp only [popMax] at h
    cases hx : popMax xs with
    | none =>
      rw [hx] at h
      simp at h
      have hxs : xs = [] := popMax_eq_none.mp hx
      subst hxs
      simp at hy
      subst hy
      rw [← h.1]
      rcases keyLe_total y y with h' | h' <;> exact h'
    | some p =>
      obtain ⟨m', rest'⟩ := p
      rw [hx] at h
      by_cases hk : keyLe x m'
      · simp [hk] at h
        rw [← h.1]
        rcases List.mem_cons.mp hy with hy | hy
        · subst hy; exact hk
        · exact ih hx y hy
      · simp [hk] at h
        rw [← h.1]
        rcases List.mem_cons.mp hy with hy | hy
        · subst hy
          rcases keyLe_total y y with h' | h' <;> exact h'
        · have h₁ := ih hx y hy
          rcases keyLe_total x m' with h₂ | h₂
          · exact absurd h₂ hk
          · exact keyLe_trans h₁ h₂

lemma popMax_rest_mem : ∀ {l : List (Int × Int × Nat)} {m rest},
    popMax l = some (m, rest) → ∀ x ∈ rest, x ∈ l := by
  intro l
  induction l with
  | nil => intro m rest h; simp [popMax] at h
  | cons x xs ih =>
    intro m rest h y hy
    simp only [popMax] at h
    cases hx : popMax xs with
    | none =>
      rw [hx] at h
      simp at h
      obtain ⟨-, h2⟩ := h
      subst h2
      simp at hy
    | some p =>
      obtain ⟨m', rest'⟩ := p
      rw [hx] at h
      by_cases hk : keyLe x m'
      · simp [hk] at h
        obtain ⟨-, h2⟩ := h
        subst h2
        rcases List.mem_cons.mp hy with hy | hy
        · subst hy; simp
        · exact List.mem_cons_of_mem x (ih hx y hy)
      · simp [hk] at h
        obtain ⟨-, h2⟩ := h
        subst h2
        exact List.mem_cons_of_mem x hy

/-! ## C10: carlier on empty input -/

/-- **C10** (confirmed).  On an empty instance `carlier` returns the empty
schedule immediately, without entering the branch-and-bound loop (so for every
fuel value, including zero), and never reaches `best_schedule.unwrap()`; yet
`lateness` (`max_lateness`) on that empty schedule is itself a panic
(modelled as `none`). -/
theorem carlier_empty_input (fuel : Nat) (release_times due_times d' : List Time) :
    carlier fuel [] release_times due_times = .ok ⟨[]⟩ ∧
    JobSchedule.lateness ⟨[]⟩ d' = none := by
  constructor
  · simp [carlier]
  · simp [JobSchedule.lateness, List.max?]

/-! ## C7: the selection rule of Schrage's ready heap -/

/-- **C7** (corrected: the last tie-break is the *larger* job id).  Whenever
Schrage pops its ready heap, the selected job has the earliest due time among
the released jobs; ties are broken by longest processing time, and remaining
ties by the **largest** job id (the heap is a max-heap on
`(-due, processing, job)`, so the larger id wins). -/
theorem schrage_ready_pick (ptimes due_times : List Time) (ready : List JobId)
    (m : Int × Int × Nat) (rest : List (Int × Int × Nat))
    (h : popMax (ready.map (readyKey ptimes due_times)) = some (m, rest)) :
    m.2.2 ∈ ready ∧ m = readyKey ptimes due_times m.2.2 ∧
    ∀ j ∈ ready,
      idx due_times m.2.2 < idx due_times j ∨
      (idx due_times m.2.2 = idx due_times j ∧
        (idx ptimes j < idx ptimes m.2.2 ∨
          (idx ptimes j = idx ptimes m.2.2 ∧ j ≤ m.2.2))) := by
  have hmem := popMax_mem h
  obtain ⟨j₀, hj₀, hkey⟩ := List.mem_map.mp hmem
  have h22 : m.2.2 = j₀ := by rw [← hkey]; rfl
  rw [h22]
  refine ⟨hj₀, hkey.symm, ?_⟩
  intro j hjmem
  have hle := popMax_le h (readyKey ptimes due_times j)
    (List.mem_map_of_mem _ hjmem)
  rw [← hkey] at hle
  simp only [readyKey, keyLe, Bool.or_eq_true, Bool.and_eq_true,
    decide_eq_true_eq] at hle
  rcases hle with h1 | ⟨h1, h2⟩
  · exact Or.inl (by linarith)
  · exact Or.inr ⟨by linarith, h2⟩

/-- Witness for C7's theorem: on the concrete ready set `{0, 1}` with
`p = [2,1]`, `d = [5,3]`, the pop selects job `1` (due `3 < 5`). -/
theorem schrage_ready_pick_witness :
    (1 : JobId) ∈ [0, 1] ∧ ((-3 : Int), (1 : Int), (1 : Nat)) = readyKey [2,1] [5,3] 1 ∧
    ∀ j ∈ [0, 1],
      idx [5,3] 1 < idx [5,3] j ∨
      (idx [5,3] 1 = idx [5,3] j ∧
        (idx [2,1] j < idx [2,1] 1 ∨
          (idx [2,1] j = idx [2,1] 1 ∧ j ≤ 1))) :=
  schrage_ready_pick [2,1] [5,3] [0,1] (-3,1,1) [(-5,2,0)] (by decide)

/-- Counterexample to C7 as stated: with two jobs of identical release,
processing and due times, Schrage schedules job `1` first, not the job with
the *smaller* id `0`. -/
theorem schrage_tie_prefers_larger_id :
    (schrage [1,1] [0,0] [5,5]).schedule.map JobRun.job = [1, 0] ∧
    ([1, 0] : List JobId) ≠ [0, 1] := by
  constructor
  · decide
  · decide

/-! ## C8: the pivot of critical_path -/

lemma getD_zero (x : Time) (xs : List Time) : (x :: xs).getD 0 0 = x := rfl

lemma getD_succ (x : Time) (xs : List Time) (n : Nat) :
    (x :: xs).getD (n + 1) 0 = xs.getD n 0 := rfl

lemma argmaxLast_eq_none : ∀ {l : List Time}, argmaxLast l = none → l = [] := by
  intro l h
  cases l with
  | nil => rfl
  | cons x xs =>
    exfalso
    cases hx : argmaxLast xs with
    | none => simp [argmaxLast, hx] at h
    | some p =>
      obtain ⟨i, v⟩ := p
      simp only [argmaxLast, hx] at h
      by_cases hgt : x > v
      · rw [if_pos hgt] at h; simp at h
      · rw [if_neg hgt] at h; simp at h

lemma argmaxLast_spec : ∀ (l : List Time) (i : Nat) (v : Time),
    argmaxLast l = some (i, v) →
    i < l.length ∧ l.getD i 0 = v ∧ (∀ k, k < l.length → l.getD k 0 ≤ v) ∧
    (∀ k, i < k → k < l.length → l.getD k 0 < v) := by
  intro l
  induction l with
  | nil => intro i v h; simp [argmaxLast] at h
  | cons x xs ih =>
    intro i v h
    cases hx : argmaxLast xs with
    | none =>
      have hxs : xs = [] := argmaxLast_eq_none hx
      subst hxs
      simp only [argmaxLast, hx] at h
      obtain ⟨hi, hv⟩ : 0 = i ∧ x = v := by simpa using h
      subst hi
      subst hv
      refine ⟨by simp, by simp, ?_, ?_⟩
      · intro k hk
        simp at hk
        subst hk
        simp
      · intro k h₁ h₂
        simp at h₂
        omega
    | some p =>
      obtain ⟨i', v'⟩ := p
      obtain ⟨hi', hval, hmax, hlast⟩ := ih i' v' hx
      simp only [argmaxLast, hx] at h
      by_cases hgt : x > v'
      · rw [if_pos hgt] at h
        obtain ⟨hi, hv⟩ : 0 = i ∧ x = v := by simpa using h
        subst hi
        subst hv
        refine ⟨by simp, by simp, ?_, ?_⟩
        · intro k hk
          cases k with
          | zero => simp
          | succ k' =>
            rw [getD_succ]
            have := hmax k' (by simpa using hk)
            linarith
        · intro k h₁ h₂
          cases k with
          | zero => omega
          | succ k' =>
            rw [getD_succ]
            have := hmax k' (by simpa using h₂)
            linarith
      · rw [if_neg hgt] at h
        obtain ⟨hi, hv⟩ : i' + 1 = i ∧ v' = v := by simpa using h
        subst hi
        subst hv
        refine ⟨by simpa using hi', by rw [getD_succ]; exact hval, ?_, ?_⟩
        · intro k hk
          cases k with
          | zero =>
            rw [getD_zero]
            linarith
          | succ k' =>
            rw [getD_succ]
            exact hmax k' (by simpa using hk)
        · intro k h₁ h₂
          cases k with
          | zero => omega
          | succ k' =>
            rw [getD_succ]
            exact hlast k' (by omega) (by simpa using h₂)

lemma getD_map_runLateness (due_times : List Time) (l : List JobRun) (k : Nat)
    (hk : k < l.length) :
    (l.map (runLateness due_times)).getD k 0
      = runLateness due_times (l.getD k dummyRun) := by
  rw [List.getD_eq_getElem?_getD, List.getD_eq_getElem?_getD,
    List.getElem?_map, List.getElem?_eq_getElem hk]
  simp

/-- **C8** (corrected: the pivot is the *largest* such index).  The pivot `p`
returned by `critical_path` attains the maximum lateness, and every run at a
*later* position has strictly smaller lateness: ties on the maximum are
resolved towards the largest index (Rust's `max_by_key` keeps the last
maximum), not the smallest. -/
theorem critical_path_pivot (s : JobSchedule) (due_times : List Time)
    (a p : Nat) (h : critical_path s due_times = some (a, p)) :
    p < s.schedule.length ∧
    (∀ i, i < s.schedule.length →
      runLateness due_times (s.schedule.getD i dummyRun)
        ≤ runLateness due_times (s.schedule.getD p dummyRun)) ∧
    (∀ i, p < i → i < s.schedule.length →
      runLateness due_times (s.schedule.getD i dummyRun)
        < runLateness due_times (s.schedule.getD p dummyRun)) := by
  simp only [critical_path] at h
  cases hmax : argmaxLast (s.schedule.map (runLateness due_times)) with
  | none =>
    simp only [hmax] at h
    exact Option.noConfusion h
  | some q =>
    obtain ⟨p', v⟩ := q
    simp only [hmax, Option.some.injEq, Prod.mk.injEq] at h
    obtain ⟨-, hp⟩ := h
    subst hp
    obtain ⟨hlt, hval, hmaxval, hlast⟩ := argmaxLast_spec _ _ _ hmax
    rw [List.length_map] at hlt
    rw [getD_map_runLateness due_times _ p' hlt] at hval
    refine ⟨hlt, ?_, ?_⟩
    · intro i hi
      have h1 := hmaxval i (by simpa using hi)
      rw [getD_map_runLateness due_times _ i hi] at h1
      rw [hval]
      exact h1
    · intro i h₁ h₂
      have h1 := hlast i h₁ (by simpa using h₂)
      rw [getD_map_runLateness due_times _ i h₂] at h1
      rw [hval]
      exact h1

/-- Witness for C8's theorem at a concrete schedule: two unit jobs scheduled
back to back with `d = [0, 5]`; the unique maximum is at index 0. -/
theorem critical_path_pivot_witness :
    (0 : Nat) < (from_order_durations_releasetimes [0,1] [1,1] [0,0]).schedule.length ∧
    (∀ i, i < (from_order_durations_releasetimes [0,1] [1,1] [0,0]).schedule.length →
      runLateness [0,5] ((from_order_durations_releasetimes [0,1] [1,1] [0,0]).schedule.getD i dummyRun)
        ≤ runLateness [0,5] ((from_order_durations_releasetimes [0,1] [1,1] [0,0]).schedule.getD 0 dummyRun)) ∧
    (∀ i, 0 < i → i < (from_order_durations_releasetimes [0,1] [1,1] [0,0]).schedule.length →
      runLateness [0,5] ((from_order_durations_releasetimes [0,1] [1,1] [0,0]).schedule.getD i dummyRun)
        < runLateness [0,5] ((from_order_durations_releasetimes [0,1] [1,1] [0,0]).schedule.getD 0 dummyRun)) :=
  critical_path_pivot (from_order_durations_releasetimes [0,1] [1,1] [0,0])
    [0,5] 0 0 (by decide)

/-- Counterexample to C8 as stated: two unit jobs with `d = [1, 2]` give
equal lateness `0` at both schedule positions; the smallest index achieving
the maximum is `0`, but `critical_path` returns pivot `1`. -/
theorem critical_path_pivot_not_smallest :
    critical_path (from_order_durations_releasetimes [0,1] [1,1] [0,0]) [1,2]
      = some (0, 1) ∧
    runLateness [1,2]
        ((from_order_durations_releasetimes [0,1] [1,1] [0,0]).schedule.getD 0 dummyRun)
      = runLateness [1,2]
        ((from_order_durations_releasetimes [0,1] [1,1] [0,0]).schedule.getD 1 dummyRun) := by
  constructor
  · decide
  · decide

/-! ## C6: ascent tightening -/

lemma getD_set_ne (l : List Time) (i j : Nat) (v : Time) (h : i ≠ j) :
    (l.set i v).getD j 0 = l.getD j 0 := by
  rw [List.getD_eq_getElem?_getD, List.getD_eq_getElem?_getD, List.getElem?_set_ne h]

lemma getD_set_self (l : List Time) (i : Nat) (v : Time) (h : i < l.length) :
    (l.set i v).getD i 0 = v := by
  rw [List.getD_eq_getElem?_getD, List.getElem?_set_self]
  · simp [List.getElem?_eq_getElem, h]
  · exact h

lemma ascentStep_fst_ne (pt : List Time) (ub : Option Time) (cb P Rm Dm : Time)
    (rd : List Time × List Time) (x j : JobId) (h : x ≠ j) :
    (ascentStep pt ub cb P Rm Dm rd x).1.getD j 0 = rd.1.getD j 0 := by
  obtain ⟨rt, dt⟩ := rd
  simp only [ascentStep]
  split
  · split
    · exact getD_set_ne rt x j _ h
    · split <;> rfl
  · rfl

lemma ascentStep_snd_ne (pt : List Time) (ub : Option Time) (cb P Rm Dm : Time)
    (rd : List Time × List Time) (x j : JobId) (h : x ≠ j) :
    (ascentStep pt ub cb P Rm Dm rd x).2.getD j 0 = rd.2.getD j 0 := by
  obtain ⟨rt, dt⟩ := rd
  simp only [ascentStep]
  split
  · split
    · rfl
    · split
      · exact getD_set_ne dt x j _ h
      · rfl
  · rfl

lemma ascentStep_length (pt : List Time) (ub : Option Time) (cb P Rm Dm : Time)
    (rd : List Time × List Time) (x : JobId) :
    (ascentStep pt ub cb P Rm Dm rd x).1.length = rd.1.length ∧
    (ascentStep pt ub cb P Rm Dm rd x).2.length = rd.2.length := by
  obtain ⟨rt, dt⟩ := rd
  simp only [ascentStep]
  split
  · split
    · simp
    · split <;> simp
  · simp

lemma ascentFold_not_mem (pt : List Time) (ub : Option Time) (cb P Rm Dm : Time) :
    ∀ (jobs : List JobId) (rt dt : List Time) (j : JobId), j ∉ jobs →
    (ascentFold pt ub cb P Rm Dm jobs (rt, dt)).1.getD j 0 = rt.getD j 0 ∧
    (ascentFold pt ub cb P Rm Dm jobs (rt, dt)).2.getD j 0 = dt.getD j 0 := by
  intro jobs
  induction jobs with
  | nil => intro rt dt j _; exact ⟨rfl, rfl⟩
  | cons x rest ih =>
    intro rt dt j hj
    have hne : x ≠ j := fun hc => hj (hc ▸ List.mem_cons_self x rest)
    have hjr : j ∉ rest := fun hc => hj (List.mem_cons_of_mem x hc)
    have h1 := ih (ascentStep pt ub cb P Rm Dm (rt, dt) x).1
      (ascentStep pt ub cb P Rm Dm (rt, dt) x).2 j hjr
    rw [Prod.mk.eta] at h1
    simp only [ascentFold, List.foldl_cons] at h1 ⊢
    constructor
    · rw [h1.1, ascentStep_fst_ne pt ub cb P Rm Dm (rt, dt) x j hne]
    · rw [h1.2, ascentStep_snd_ne pt ub cb P Rm Dm (rt, dt) x j hne]

lemma ascentStep_fst_self (pt : List Time) (ub : Option Time) (cb P Rm Dm : Time)
    (rt dt : List Time) (x : JobId) (hx : x < rt.length) :
    (ascentStep pt ub cb P Rm Dm (rt, dt) x).1.getD x 0 =
      if gtUbSub (idx pt x) ub cb && gtUbAdd (idx rt x + idx pt x + P) ub Dm
      then max (idx rt x) (Rm + P) else idx rt x := by
  simp only [ascentStep]
  by_cases h0 : gtUbSub (idx pt x) ub cb
  · rw [if_pos h0]
    by_cases h1 : gtUbAdd (idx rt x + idx pt x + P) ub Dm
    · rw [if_pos h1, if_pos (by simp [h0, h1])]
      exact getD_set_self rt x _ hx
    · rw [if_neg h1]
      by_cases h2 : gtUbAdd (Rm + P + idx pt x) ub (idx dt x)
      · rw [if_pos h2, if_neg (by simp [h1])]
        rfl
      · rw [if_neg h2, if_neg (by simp [h1])]
        rfl
  · rw [if_neg h0, if_neg (by simp [h0])]
    rfl

lemma ascentStep_snd_self (pt : List Time) (ub : Option Time) (cb P Rm Dm : Time)
    (rt dt : List Time) (x : JobId) (hx : x < dt.length) :
    (ascentStep pt ub cb P Rm Dm (rt, dt) x).2.getD x 0 =
      if gtUbSub (idx pt x) ub cb && !gtUbAdd (idx rt x + idx pt x + P) ub Dm
          && gtUbAdd (Rm + P + idx pt x) ub (idx dt x)
      then min (idx dt x) (Dm - P) else idx dt x := by
  simp only [ascentStep]
  by_cases h0 : gtUbSub (idx pt x) ub cb
  · rw [if_pos h0]
    by_cases h1 : gtUbAdd (idx rt x + idx pt x + P) ub Dm
    · rw [if_pos h1, if_neg (by simp [h1])]
      rfl
    · rw [if_neg h1]
      by_cases h2 : gtUbAdd (Rm + P + idx pt x) ub (idx dt x)
      · rw [if_pos h2, if_pos (by simp [h0, h1, h2])]
        exact getD_set_self dt x _ hx
      · rw [if_neg h2, if_neg (by simp [h2])]
        rfl
  · rw [if_neg h0, if_neg (by simp [h0])]
    rfl

lemma ascentFold_mem_rule (pt : List Time) (ub : Option Time) (cb P Rm Dm : Time) :
    ∀ (jobs : List JobId) (rt dt : List Time) (j : JobId),
    jobs.Nodup → (∀ k ∈ jobs, k < rt.length ∧ k < dt.length) → j ∈ jobs →
    (ascentFold pt ub cb P Rm Dm jobs (rt, dt)).1.getD j 0 =
      (if gtUbSub (idx pt j) ub cb && gtUbAdd (idx rt j + idx pt j + P) ub Dm
       then max (idx rt j) (Rm + P) else idx rt j) ∧
    (ascentFold pt ub cb P Rm Dm jobs (rt, dt)).2.getD j 0 =
      (if gtUbSub (idx pt j) ub cb && !gtUbAdd (idx rt j + idx pt j + P) ub Dm
          && gtUbAdd (Rm + P + idx pt j) ub (idx dt j)
       then min (idx dt j) (Dm - P) else idx dt j) := by
  intro jobs
  induction jobs with
  | nil => intro rt dt j _ _ hj; simp at hj
  | cons x rest ih =>
    intro rt dt j hnd hb hj
    have hxrest : x ∉ rest := (List.nodup_cons.mp hnd).1
    rcases List.mem_cons.mp hj with hjx | hjr
    · subst hjx
      have hfr := ascentFold_not_mem pt ub cb P Rm Dm rest
        (ascentStep pt ub cb P Rm Dm (rt, dt) j).1
        (ascentStep pt ub cb P Rm Dm (rt, dt) j).2 j hxrest
      rw [Prod.mk.eta] at hfr
      simp only [ascentFold, List.foldl_cons] at hfr ⊢
      obtain ⟨hbx1, hbx2⟩ := hb j (List.mem_cons_self j rest)
      constructor
      · rw [hfr.1, ascentStep_fst_self pt ub cb P Rm Dm rt dt j hbx1]
      · rw [hfr.2, ascentStep_snd_self pt ub cb P Rm Dm rt dt j hbx2]
    · have hne : x ≠ j := fun hc => hxrest (hc ▸ hjr)
      have hlen := ascentStep_length pt ub cb P Rm Dm (rt, dt) x
      have hb' : ∀ k ∈ rest, k < (ascentStep pt ub cb P Rm Dm (rt, dt) x).1.length ∧
          k < (ascentStep pt ub cb P Rm Dm (rt, dt) x).2.length := by
        intro k hk
        obtain ⟨hk1, hk2⟩ := hb k (List.mem_cons_of_mem x hk)
        rw [hlen.1, hlen.2]
        exact ⟨hk1, hk2⟩
      have hih := ih (ascentStep pt ub cb P Rm Dm (rt, dt) x).1
        (ascentStep pt ub cb P Rm Dm (rt, dt) x).2 j
        (List.nodup_cons.mp hnd).2 hb' hjr
      rw [Prod.mk.eta] at hih
      have hrt : idx (ascentStep pt ub cb P Rm Dm (rt, dt) x).1 j = idx rt j :=
        ascentStep_fst_ne pt ub cb P Rm Dm (rt, dt) x j hne
      have hdt : idx (ascentStep pt ub cb P Rm Dm (rt, dt) x).2 j = idx dt j :=
        ascentStep_snd_ne pt ub cb P Rm Dm (rt, dt) x j hne
      rw [hrt, hdt] at hih
      simp only [ascentFold, List.foldl_cons] at hih ⊢
      exact hih

lemma mem_ascentJobs_iff (sched : List JobRun) (a c pv : Nat) (j : JobId) :
    j ∈ ascentJobs sched a c pv ↔
      ∃ i, ((a ≤ i ∧ i ≤ c) ∨ (pv + 1 ≤ i ∧ i < sched.length)) ∧
        (sched.getD i dummyRun).job = j := by
  simp only [ascentJobs, List.mem_map, List.mem_append, List.mem_range'_1]
  constructor
  · rintro ⟨i, hi | hi, hj⟩
    · exact ⟨i, Or.inl (by omega), hj⟩
    · exact ⟨i, Or.inr (by omega), hj⟩
  · rintro ⟨i, hi | hi, hj⟩
    · exact ⟨i, Or.inl (by omega), hj⟩
    · exact ⟨i, Or.inr (by omega), hj⟩

/-- **C6** (corrected: the traversed positions include the interference
position `c` itself).  In each branching step the ascent tightening is
applied exactly to the jobs at schedule positions `a..=c` and `p+1..`
(every position outside the critical set `c+1..=p`, *including* `c`), and
only to those whose processing time exceeds `upper_bound - crit_bound`; for
such a job `j`, `r[j]` is raised to `max(r[j], R_min + P)` when
`r[j] + p[j] + P > upper_bound + D_max`, else `d[j]` is lowered to
`min(d[j], D_max - P)` when `R_min + P + p[j] > upper_bound + d[j]`. -/
theorem carlier_ascent_tightening (pt : List Time) (ub : Option Time)
    (cb P Rm Dm : Time) (sched : List JobRun) (a c pv : Nat) (rt dt : List Time)
    (hnd : (ascentJobs sched a c pv).Nodup)
    (hb : ∀ k ∈ ascentJobs sched a c pv, k < rt.length ∧ k < dt.length)
    (j : JobId) :
    (j ∈ ascentJobs sched a c pv ↔
      ∃ i, ((a ≤ i ∧ i ≤ c) ∨ (pv + 1 ≤ i ∧ i < sched.length)) ∧
        (sched.getD i dummyRun).job = j) ∧
    (j ∉ ascentJobs sched a c pv →
      (ascentFold pt ub cb P Rm Dm (ascentJobs sched a c pv) (rt, dt)).1.getD j 0
        = rt.getD j 0 ∧
      (ascentFold pt ub cb P Rm Dm (ascentJobs sched a c pv) (rt, dt)).2.getD j 0
        = dt.getD j 0) ∧
    (j ∈ ascentJobs sched a c pv →
      (ascentFold pt ub cb P Rm Dm (ascentJobs sched a c pv) (rt, dt)).1.getD j 0
        = (if gtUbSub (idx pt j) ub cb && gtUbAdd (idx rt j + idx pt j + P) ub Dm
           then max (idx rt j) (Rm + P) else idx rt j) ∧
      (ascentFold pt ub cb P Rm Dm (ascentJobs sched a c pv) (rt, dt)).2.getD j 0
        = (if gtUbSub (idx pt j) ub cb && !gtUbAdd (idx rt j + idx pt j + P) ub Dm
              && gtUbAdd (Rm + P + idx pt j) ub (idx dt j)
           then min (idx dt j) (Dm - P) else idx dt j)) :=
  ⟨mem_ascentJobs_iff sched a c pv j,
    fun hj => ascentFold_not_mem pt ub cb P Rm Dm (ascentJobs sched a c pv) rt dt j hj,
    fun hj => ascentFold_mem_rule pt ub cb P Rm Dm (ascentJobs sched a c pv) rt dt j hnd hb hj⟩

/-- Witness for C6's theorem at the concrete branching step of
`carlier_iteration [10,1] [0,5] [100,6] (some 4)`: position `c = 0` is
traversed and job `0`'s release time is raised to `R_min + P = 6`. -/
theorem carlier_ascent_tightening_witness :
    (ascentFold [10,1] (some 4) 0 1 5 6
        (ascentJobs [⟨0,0,10⟩, ⟨10,1,1⟩] 0 0 1) ([0,5], [100,6])).1.getD 0 0
      = (if gtUbSub (idx [10,1] 0) (some 4) 0
            && gtUbAdd (idx [0,5] 0 + idx [10,1] 0 + 1) (some 4) 6
         then max (idx [0,5] 0) (5 + 1) else idx [0,5] 0) :=
  ((carlier_ascent_tightening [10,1] (some 4) 0 1 5 6 [⟨0,0,10⟩, ⟨10,1,1⟩] 0 0 1
      [0,5] [100,6] (by decide) (by decide) 0).2.2 (by decide)).1

/-- Counterexample to C6 as stated: in
`carlier_iteration [10,1] [0,5] [100,6] (some 4)` the schedule is
`[job 0 at 0..10, job 1 at 10..11]` with `a = 0`, `c = 0`, `p = 1`; the
ascent loop traverses position `c = 0` itself and raises `r[0]` from `0` to
`6`, which the claim's traversal `a..=c-1, p+1..` would leave untouched
(visible in child A, whose branching step only modifies `d[c_job]`). -/
theorem carlier_iteration_tightens_position_c :
    ((carlier_iteration [10,1] [0,5] [100,6] (some 4)).map
      (fun res => res.subproblems.map (fun sp => sp.1.release_times)))
        = some (some [6, 5]) ∧
    ([6, 5] : List Time) ≠ [0, 5] := by
  constructor
  · decide
  · decide

/-! ## C2 and C5: the driver's incumbent -/

lemma lateness_isSome (s : JobSchedule) (d : List Time) (h : s.schedule ≠ []) :
    ∃ l, s.lateness d = some l := by
  obtain ⟨r, rest, hs⟩ := List.exists_cons_of_ne_nil h
  unfold JobSchedule.lateness
  rw [hs]
  exact ⟨_, rfl⟩

lemma sortPending_ne_nil (r : List Time) (l : List JobId) (h : l ≠ []) :
    sortPending r l ≠ [] := by
  cases l with
  | nil => exact absurd rfl h
  | cons j js =>
    simp only [sortPending]
    cases hs : sortPending r js with
    | nil => simp [insertPending]
    | cons k ks =>
      simp only [insertPending]
      split <;> simp

lemma schrageLoop_ne_nil (pt rt dt : List Time) (fuel : Nat) (pending : List JobId)
    (ready : List (Int × Int × Nat)) (t : Time) (h : pending ≠ []) :
    schrageLoop pt rt dt (fuel + 1) pending ready t ≠ [] := by
  simp only [schrageLoop]
  split
  next m rest hp => simp
  next hp =>
    have hempty := popMax_eq_none.mp hp
    obtain ⟨hready, hmap⟩ := List.append_eq_nil.mp hempty
    have htake : (pending.takeWhile fun j => idx rt j ≤ t) = [] :=
      List.map_eq_nil_iff.mp hmap
    split
    next hpend =>
      exfalso
      apply h
      rw [← List.takeWhile_append_dropWhile
        (p := fun j => decide (idx rt j ≤ t)) (l := pending), htake, hpend]
      rfl
    next j tl hpend =>
      split
      next m rest hp2 => simp
      next hp2 =>
        exfalso
        have h2 := popMax_eq_none.mp hp2
        have h3 := List.map_eq_nil_iff.mp h2
        rw [hpend, List.takeWhile_cons_of_pos (by simp)] at h3
        exact List.noConfusion h3

lemma schrage_ne_nil (pt rt dt : List Time) (h : pt ≠ []) :
    (schrage pt rt dt).schedule ≠ [] := by
  have hpend : sortPending rt (List.range pt.length) ≠ [] := by
    apply sortPending_ne_nil
    simp only [ne_eq, List.range_eq_nil]
    intro hc
    exact h (List.length_eq_zero.mp hc)
  have hloop := schrageLoop_ne_nil pt rt dt (2 * pt.length) (sortPending rt
    (List.range pt.length)) [] 0 hpend
  unfold schrage from_order_durations_releasetimes
  cases horder : schrageLoop pt rt dt (2 * pt.length + 1)
      (sortPending rt (List.range pt.length)) [] 0 with
  | nil => exact absurd horder hloop
  | cons j rest =>
    simp [buildRuns]

lemma carlier_iteration_schedule (pt rt dt : List Time) (ub : Option Time)
    (res : CarlierResult) (h : carlier_iteration pt rt dt ub = some res) :
    res.schedule = schrage pt rt dt := by
  simp only [carlier_iteration] at h
  split at h
  · exact Option.noConfusion h
  · split at h
    · split at h
      · exact Option.noConfusion h
      · have := Option.some.inj h
        subst this
        rfl
    · split at h
      · exact Option.noConfusion h
      · have := Option.some.inj h
        subst this
        rfl

/-- The driver-loop invariant: starting from an incumbent `(l₀, S₀)` whose
stored bound is its own lateness under the loop's due times `d` — the
original array, regardless of the tightened arrays inside the queued nodes —
any returned schedule's lateness under `d` is defined and at most `l₀`. -/
lemma carlierLoop_ok_le (pt d : List Time) :
    ∀ (fuel : Nat) (q : List (Option Time × CarlierNode)) (l₀ : Time)
      (S₀ S : JobSchedule),
    S₀.lateness d = some l₀ →
    carlierLoop pt d fuel q (some (l₀, S₀)) = .ok S →
    ∃ l, S.lateness d = some l ∧ l ≤ l₀ := by
  intro fuel
  induction fuel with
  | zero =>
    intro q l₀ S₀ S h₀ h
    simp only [carlierLoop] at h
    cases hq : popMinQ q with
    | none =>
      simp only [hq, exitBest] at h
      cases h
      exact ⟨l₀, h₀, le_refl l₀⟩
    | some p =>
      obtain ⟨⟨lb, node⟩, rest⟩ := p
      simp only [hq] at h
      exact CarlierOut.noConfusion h
  | succ f ih =>
    intro q l₀ S₀ S h₀ h
    simp only [carlierLoop] at h
    cases hq : popMinQ q with
    | none =>
      simp only [hq, exitBest] at h
      cases h
      exact ⟨l₀, h₀, le_refl l₀⟩
    | some p =>
      obtain ⟨⟨lb, node⟩, rest⟩ := p
      simp only [hq] at h
      by_cases hpr : lbGeBest lb (some (l₀, S₀))
      · rw [if_pos hpr] at h
        exact ih rest l₀ S₀ S h₀ h
      · rw [if_neg hpr] at h
        cases hit : carlier_iteration pt node.release_times node.due_times
            (Option.map (fun x => x.1) (some (l₀, S₀))) with
        | none =>
          simp only [hit] at h
          exact CarlierOut.noConfusion h
        | some res =>
          simp only [hit] at h
          cases hlat : res.schedule.lateness d with
          | none =>
            simp only [hlat] at h
            exact CarlierOut.noConfusion h
          | some lat =>
            simp only [hlat] at h
            by_cases hup : latLtBest lat (some (l₀, S₀))
            · rw [if_pos hup] at h
              have hlt : lat < l₀ := by
                simpa [latLtBest] using hup
              cases hsub : res.subproblems with
              | some ch =>
                obtain ⟨c1, c2⟩ := ch
                simp only [hsub] at h
                by_cases hpush : latLtBest res.lower_bound (some (lat, res.schedule))
                · rw [if_pos hpush] at h
                  obtain ⟨l, hl, hle⟩ := ih _ lat res.schedule S hlat h
                  exact ⟨l, hl, le_trans hle (le_of_lt hlt)⟩
                · rw [if_neg hpush] at h
                  obtain ⟨l, hl, hle⟩ := ih _ lat res.schedule S hlat h
                  exact ⟨l, hl, le_trans hle (le_of_lt hlt)⟩
              | none =>
                simp only [hsub] at h
                obtain ⟨l, hl, hle⟩ := ih _ lat res.schedule S hlat h
                exact ⟨l, hl, le_trans hle (le_of_lt hlt)⟩
            · rw [if_neg hup] at h
              cases hsub : res.subproblems with
              | some ch =>
                obtain ⟨c1, c2⟩ := ch
                simp only [hsub] at h
                by_cases hpush : latLtBest res.lower_bound (some (l₀, S₀))
                · rw [if_pos hpush] at h
                  exact ih _ l₀ S₀ S h₀ h
                · rw [if_neg hpush] at h
                  exact ih _ l₀ S₀ S h₀ h
              | none =>
                simp only [hsub] at h
                exact ih _ l₀ S₀ S h₀ h

/-- **C2** (confirmed).  Whenever the branch-and-bound loop returns (for any
fuel), the returned schedule's maximum lateness under the original due times
is at most that of the Schrage schedule of the original instance: the first
iteration runs Schrage on the untightened arrays and seeds the incumbent,
which only improves afterwards. -/
theorem carlier_le_schrage (fuel : Nat) (pt rt dt : List Time) (S : JobSchedule)
    (hne : pt ≠ []) (h : carlier fuel pt rt dt = .ok S) :
    ∃ lS lH, S.lateness dt = some lS ∧
      (schrage pt rt dt).lateness dt = some lH ∧ lS ≤ lH := by
  unfold carlier at h
  rw [if_neg hne] at h
  cases fuel with
  | zero =>
    simp only [carlierLoop, popMinQ] at h
    exact CarlierOut.noConfusion h
  | succ f =>
    simp only [carlierLoop, popMinQ] at h
    rw [if_neg (by simp [lbGeBest])] at h
    simp only [Option.map] at h
    cases hit : carlier_iteration pt rt dt none with
    | none =>
      simp only [hit] at h
      exact CarlierOut.noConfusion h
    | some res =>
      simp only [hit] at h
      have hres := carlier_iteration_schedule pt rt dt none res hit
      obtain ⟨L, hL⟩ := lateness_isSome (schrage pt rt dt) dt (schrage_ne_nil pt rt dt hne)
      have hlat : res.schedule.lateness dt = some L := by rw [hres]; exact hL
      simp only [hlat] at h
      rw [if_pos (by simp [latLtBest])] at h
      cases hsub : res.subproblems with
      | some ch =>
        obtain ⟨c1, c2⟩ := ch
        simp only [hsub] at h
        by_cases hpush : latLtBest res.lower_bound (some (L, res.schedule))
        · rw [if_pos hpush] at h
          obtain ⟨l, hl, hle⟩ := carlierLoop_ok_le pt dt f _ L res.schedule S hlat h
          exact ⟨l, L, hl, hL, hle⟩
        · rw [if_neg hpush] at h
          obtain ⟨l, hl, hle⟩ := carlierLoop_ok_le pt dt f _ L res.schedule S hlat h
          exact ⟨l, L, hl, hL, hle⟩
      | none =>
        simp only [hsub] at h
        obtain ⟨l, hl, hle⟩ := carlierLoop_ok_le pt dt f _ L res.schedule S hlat h
        exact ⟨l, L, hl, hL, hle⟩

/-- Witness for C2's theorem at the concrete instance `p=[1,1]`, `r=[0,0]`,
`d=[5,5]` with fuel 1. -/
theorem carlier_le_schrage_witness :
    ∃ lS lH, JobSchedule.lateness ⟨[⟨0,1,1⟩, ⟨1,0,1⟩]⟩ [5,5] = some lS ∧
      (schrage [1,1] [0,0] [5,5]).lateness [5,5] = some lH ∧ lS ≤ lH :=
  carlier_le_schrage 1 [1,1] [0,0] [5,5] ⟨[⟨0,1,1⟩, ⟨1,0,1⟩]⟩
    (by decide) (by decide)

/-- **C5** (confirmed).  The driver's incumbent is always measured with the
due-time array `d` handed to the loop — the original one — no matter what
tightened `release_times`/`due_times` the queued `CarlierNode`s carry: from
any incumbent `(l₀, S₀)` with `S₀.lateness d = some l₀` and *any* queue of
tightened nodes, a returned schedule again satisfies this relation with a
bound `l ≤ l₀`.  (Had the loop measured lateness with a node's tightened due
times, the stored bound could not be related to `d` at all.) -/
theorem carlier_incumbent_original_due (pt d : List Time) (fuel : Nat)
    (q : List (Option Time × CarlierNode)) (l₀ : Time) (S₀ S : JobSchedule)
    (h₀ : S₀.lateness d = some l₀)
    (h : carlierLoop pt d fuel q (some (l₀, S₀)) = .ok S) :
    ∃ l, S.lateness d = some l ∧ l ≤ l₀ :=
  carlierLoop_ok_le pt d fuel q l₀ S₀ S h₀ h

/-- Witness for C5's theorem: a singleton incumbent survives an empty queue. -/
theorem carlier_incumbent_original_due_witness :
    ∃ l, JobSchedule.lateness ⟨[⟨0,0,1⟩]⟩ [0] = some l ∧ l ≤ 1 :=
  carlier_incumbent_original_due [] [0] 0 [] 1 ⟨[⟨0,0,1⟩]⟩ ⟨[⟨0,0,1⟩]⟩
    (by decide) (by decide)

/-! ## C4: constant release times -/

lemma mem_insertPending {r : List Time} {j k : JobId} {l : List JobId} :
    k ∈ insertPending r j l ↔ k = j ∨ k ∈ l := by
  induction l with
  | nil => simp [insertPending]
  | cons x xs ih =>
    simp only [insertPending]
    split
    · simp [List.mem_cons]
    · simp only [List.mem_cons, ih]
      tauto

lemma mem_sortPending {r : List Time} {k : JobId} {l : List JobId} :
    k ∈ sortPending r l ↔ k ∈ l := by
  induction l with
  | nil => simp [sortPending]
  | cons x xs ih =>
    simp only [sortPending, mem_insertPending, ih, List.mem_cons]

lemma takeWhile_eq_self_of_all {p : JobId → Bool} {l : List JobId}
    (h : ∀ x ∈ l, p x = true) : l.takeWhile p = l := by
  induction l with
  | nil => rfl
  | cons x xs ih =>
    rw [List.takeWhile_cons_of_pos (h x (List.mem_cons_self x xs))]
    rw [ih (fun y hy => h y (List.mem_cons_of_mem x hy))]

lemma dropWhile_eq_nil_of_all {p : JobId → Bool} {l : List JobId}
    (h : ∀ x ∈ l, p x = true) : l.dropWhile p = [] := by
  induction l with
  | nil => rfl
  | cons x xs ih =>
    rw [List.dropWhile_cons_of_pos (h x (List.mem_cons_self x xs))]
    exact ih (fun y hy => h y (List.mem_cons_of_mem x hy))

/-- Draining the ready heap with no pending jobs: every output job comes
from the heap and the output keys are sorted, largest first. -/
lemma schrageLoop_drain (pt rt dt : List Time) :
    ∀ (fuel : Nat) (ready : List (Int × Int × Nat)) (t : Time),
    (∀ x ∈ ready, x = readyKey pt dt x.2.2) →
    (∀ j' ∈ schrageLoop pt rt dt fuel [] ready t, ∃ x ∈ ready, x.2.2 = j') ∧
    (schrageLoop pt rt dt fuel [] ready t).Pairwise
      (fun j k => keyLe (readyKey pt dt k) (readyKey pt dt j)) := by
  intro fuel
  induction fuel with
  | zero =>
    intro ready t _
    simp only [schrageLoop]
    exact ⟨by simp, List.Pairwise.nil⟩
  | succ f ih =>
    intro ready t hready
    simp only [schrageLoop, List.takeWhile_nil, List.dropWhile_nil, List.map_nil,
      List.append_nil]
    cases hp : popMax ready with
    | none =>
      simp only [hp]
      exact ⟨by simp, List.Pairwise.nil⟩
    | some p =>
      obtain ⟨m, rest⟩ := p
      simp only [hp]
      have hrest : ∀ x ∈ rest, x = readyKey pt dt x.2.2 :=
        fun x hx => hready x (popMax_rest_mem hp x hx)
      obtain ⟨ihmem, ihpair⟩ := ih rest (t + idx pt m.2.2) hrest
      constructor
      · intro j' hj'
        rcases List.mem_cons.mp hj' with hj' | hj'
        · exact ⟨m, popMax_mem hp, hj'.symm⟩
        · obtain ⟨x, hx, hxj⟩ := ihmem j' hj'
          exact ⟨x, popMax_rest_mem hp x hx, hxj⟩
      · refine List.Pairwise.cons ?_ ihpair
        intro k hk
        obtain ⟨x, hx, hxk⟩ := ihmem k hk
        have hxready := popMax_rest_mem hp x hx
        have hle := popMax_le hp x hxready
        have hxkey := hready x hxready
        have hmkey := hready m (popMax_mem hp)
        rw [hxkey, hxk] at hle
        rw [hmkey] at hle
        exact hle

lemma drain_cons_pairwise (pt rt dt : List Time) (fuel : Nat)
    (ready : List (Int × Int × Nat)) (m : Int × Int × Nat)
    (rest : List (Int × Int × Nat)) (t : Time)
    (hready : ∀ x ∈ ready, x = readyKey pt dt x.2.2)
    (hp : popMax ready = some (m, rest)) :
    (m.2.2 :: schrageLoop pt rt dt fuel [] rest t).Pairwise
      (fun j k => keyLe (readyKey pt dt k) (readyKey pt dt j)) := by
  have hrest : ∀ x ∈ rest, x = readyKey pt dt x.2.2 :=
    fun x hx => hready x (popMax_rest_mem hp x hx)
  obtain ⟨ihmem, ihpair⟩ := schrageLoop_drain pt rt dt fuel rest t hrest
  refine List.Pairwise.cons ?_ ihpair
  intro k hk
  obtain ⟨x, hx, hxk⟩ := ihmem k hk
  have hxready := popMax_rest_mem hp x hx
  have hle := popMax_le hp x hxready
  have hxkey := hready x hxready
  have hmkey := hready m (popMax_mem hp)
  rw [hxkey, hxk] at hle
  rw [hmkey] at hle
  exact hle

lemma map_readyKey_wf (pt dt : List Time) (l : List JobId) :
    ∀ x ∈ l.map (readyKey pt dt), x = readyKey pt dt x.2.2 := by
  intro x hx
  obtain ⟨j, -, hj⟩ := List.mem_map.mp hx
  rw [← hj]
  rfl

/-- With constant release times the Schrage order is sorted by descending
ready-heap key: the whole instance is released at once and the loop drains
the heap. -/
lemma schrage_order_sorted_const (pt r dt : List Time) (r₀ : Time)
    (hconst : ∀ x ∈ r, x = r₀) (hrl : r.length = pt.length) :
    (schrageLoop pt r dt (2 * pt.length + 1)
      (sortPending r (List.range pt.length)) [] 0).Pairwise
      (fun j k => keyLe (readyKey pt dt k) (readyKey pt dt j)) := by
  have hall : ∀ j ∈ sortPending r (List.range pt.length), idx r j = r₀ := by
    intro j hj
    have hjlt : j < pt.length := List.mem_range.mp (mem_sortPending.mp hj)
    have hjr : j < r.length := by rw [hrl]; exact hjlt
    have hmem : idx r j ∈ r := by
      unfold idx
      rw [List.getD_eq_getElem r 0 hjr]
      exact List.getElem_mem hjr
    exact hconst _ hmem
  cases hpc : sortPending r (List.range pt.length) with
  | nil =>
    simp [schrageLoop, popMax]
  | cons j tl =>
    rw [hpc] at hall
    have hjhead : idx r j = r₀ := hall j (List.mem_cons_self j tl)
    by_cases hr0 : r₀ ≤ 0
    · have htw : (j :: tl).takeWhile (fun j' => idx r j' ≤ (0 : Time)) = j :: tl :=
        takeWhile_eq_self_of_all (fun x hx => by
          simp only [hall x hx, decide_eq_true_eq]
          exact hr0)
      have hdw : (j :: tl).dropWhile (fun j' => idx r j' ≤ (0 : Time)) = [] :=
        dropWhile_eq_nil_of_all (fun x hx => by
          simp only [hall x hx, decide_eq_true_eq]
          exact hr0)
      simp only [schrageLoop, htw, hdw, List.nil_append]
      cases hp : popMax ((j :: tl).map (readyKey pt dt)) with
      | none =>
        have := popMax_eq_none.mp hp
        simp at this
      | some p =>
        obtain ⟨m, rest⟩ := p
        simp only [hp]
        exact drain_cons_pairwise pt r dt (2 * pt.length) _ m rest _
          (map_readyKey_wf pt dt _) hp
    · have htw : (j :: tl).takeWhile (fun j' => idx r j' ≤ (0 : Time)) = [] := by
        rw [List.takeWhile_cons_of_neg]
        simp only [hjhead, decide_eq_true_eq]
        exact hr0
      have hdw : (j :: tl).dropWhile (fun j' => idx r j' ≤ (0 : Time)) = j :: tl := by
        rw [List.dropWhile_cons_of_neg]
        simp only [hjhead, decide_eq_true_eq]
        exact hr0
      have htw2 : (j :: tl).takeWhile (fun j' => idx r j' ≤ idx r j) = j :: tl :=
        takeWhile_eq_self_of_all (fun x hx => by
          simp only [hall x hx, hjhead, decide_eq_true_eq]
          exact le_refl r₀)
      have hdw2 : (j :: tl).dropWhile (fun j' => idx r j' ≤ idx r j) = [] :=
        dropWhile_eq_nil_of_all (fun x hx => by
          simp only [hall x hx, hjhead, decide_eq_true_eq]
          exact le_refl r₀)
      simp only [schrageLoop, htw, hdw, List.map_nil, List.append_nil,
        List.nil_append, popMax]
      simp only [htw2, hdw2]
      cases hp : popMax ((j :: tl).map (readyKey pt dt)) with
      | none =>
        have := popMax_eq_none.mp hp
        simp at this
      | some p =>
        obtain ⟨m, rest⟩ := p
        simp only [hp]
        exact drain_cons_pairwise pt r dt (2 * pt.length) _ m rest _
          (map_readyKey_wf pt dt _) hp

lemma buildRuns_map_job (pt rt : List Time) :
    ∀ (order : List JobId) (t : Time),
    (buildRuns pt rt order t).map (fun run => run.job) = order := by
  intro order
  induction order with
  | nil => intro t; rfl
  | cons j rest ih =>
    intro t
    simp only [buildRuns, List.map_cons, ih]

lemma buildRuns_length (pt rt : List Time) (order : List JobId) (t : Time) :
    (buildRuns pt rt order t).length = order.length := by
  have := congrArg List.length (buildRuns_map_job pt rt order t)
  simpa using this

lemma buildRuns_getD_job (pt rt : List Time) (order : List JobId) (t : Time)
    (i : Nat) (hi : i < order.length) :
    ((buildRuns pt rt order t).getD i dummyRun).job = order.getD i 0 := by
  have hlen : i < (buildRuns pt rt order t).length := by
    rw [buildRuns_length]; exact hi
  have h1 : ((buildRuns pt rt order t).map (fun run => run.job))[i]? = order[i]? := by
    rw [buildRuns_map_job]
  rw [List.getElem?_map] at h1
  rw [List.getD_eq_getElem _ dummyRun hlen, List.getD_eq_getElem _ 0 hi]
  rw [List.getElem?_eq_getElem hlen, List.getElem?_eq_getElem hi] at h1
  simpa using h1

lemma schrage_due_monotone_const (pt r dt : List Time) (r₀ : Time)
    (hconst : ∀ x ∈ r, x = r₀) (hrl : r.length = pt.length) :
    ∀ i k, i < k → k < (schrage pt r dt).schedule.length →
    idx dt ((schrage pt r dt).schedule.getD i dummyRun).job
      ≤ idx dt ((schrage pt r dt).schedule.getD k dummyRun).job := by
  intro i k hik hk
  have hsched : (schrage pt r dt).schedule = buildRuns pt r
      (schrageLoop pt r dt (2 * pt.length + 1)
        (sortPending r (List.range pt.length)) [] 0) 0 := rfl
  rw [hsched] at hk ⊢
  set order := schrageLoop pt r dt (2 * pt.length + 1)
    (sortPending r (List.range pt.length)) [] 0 with horder_def
  have horder := schrage_order_sorted_const pt r dt r₀ hconst hrl
  rw [← horder_def] at horder
  rw [List.pairwise_iff_getElem] at horder
  have hkk : k < order.length := by
    rw [buildRuns_length] at hk
    exact hk
  have hii : i < order.length := lt_trans hik hkk
  have hR := horder i k hii hkk hik
  rw [buildRuns_getD_job pt r order 0 i hii, buildRuns_getD_job pt r order 0 k hkk]
  rw [List.getD_eq_getElem order 0 hii, List.getD_eq_getElem order 0 hkk]
  simp only [readyKey, keyLe, Bool.or_eq_true, Bool.and_eq_true,
    decide_eq_true_eq] at hR
  rcases hR with h1 | ⟨h1, -⟩
  · linarith
  · linarith

lemma carlier_iteration_const (pt r dt : List Time) (ub : Option Time) (r₀ : Time)
    (hne : pt ≠ []) (hrl : r.length = pt.length) (hconst : ∀ x ∈ r, x = r₀) :
    ∃ l, carlier_iteration pt r dt ub
        = some { schedule := schrage pt r dt, lower_bound := l, subproblems := none }
      ∧ (schrage pt r dt).lateness dt = some l := by
  obtain ⟨L, hL⟩ := lateness_isSome (schrage pt r dt) dt (schrage_ne_nil pt r dt hne)
  refine ⟨L, ?_, hL⟩
  simp only [carlier_iteration]
  cases hcp : critical_path (schrage pt r dt) dt with
  | none =>
    exfalso
    unfold critical_path at hcp
    cases hmax : argmaxLast ((schrage pt r dt).schedule.map (runLateness dt)) with
    | none =>
      have h1 := argmaxLast_eq_none hmax
      have h2 := List.map_eq_nil_iff.mp h1
      exact schrage_ne_nil pt r dt hne h2
    | some q =>
      obtain ⟨pv, v⟩ := q
      simp only [hmax] at hcp
      exact Option.noConfusion hcp
  | some ap =>
    obtain ⟨a, pv⟩ := ap
    simp only [hcp]
    have hpv : pv < (schrage pt r dt).schedule.length := by
      unfold critical_path at hcp
      cases hmax : argmaxLast ((schrage pt r dt).schedule.map (runLateness dt)) with
      | none =>
        simp only [hmax] at hcp
        exact Option.noConfusion hcp
      | some q =>
        obtain ⟨pv', v⟩ := q
        simp only [hmax, Option.some.injEq, Prod.mk.injEq] at hcp
        obtain ⟨-, hpveq⟩ := hcp
        subst hpveq
        have := (argmaxLast_spec _ _ _ hmax).1
        simpa using this
    have hfind : (((List.range' a (pv - a)).reverse).find? (fun i =>
        idx dt ((schrage pt r dt).schedule.getD i dummyRun).job
          > idx dt ((schrage pt r dt).schedule.getD pv dummyRun).job)) = none := by
      rw [List.find?_eq_none]
      intro i hi
      have hi' : i ∈ List.range' a (pv - a) := List.mem_reverse.mp hi
      have hib := List.mem_range'_1.mp hi'
      have hilt : i < pv := by omega
      have hmono := schrage_due_monotone_const pt r dt r₀ hconst hrl i pv hilt hpv
      simp only [decide_eq_true_eq]
      exact not_lt.mpr hmono
    simp only [hfind, hL]

/-- **C4** (confirmed).  When every release time is the same, `carlier`
returns the Schrage schedule itself (for any fuel admitting at least one
iteration): the Schrage order is sorted by due time, so the very first
critical-path analysis finds no interference job and the node is declared
optimal.  In particular
`schrage(p,r,d).max_lateness(d) = carlier(p,r,d).max_lateness(d)`. -/
theorem schrage_optimal_const_release (f : Nat) (pt r dt : List Time) (r₀ : Time)
    (hne : pt ≠ []) (hrl : r.length = pt.length) (hconst : ∀ x ∈ r, x = r₀) :
    carlier (f + 1) pt r dt = .ok (schrage pt r dt) := by
  obtain ⟨L, hit, hL⟩ := carlier_iteration_const pt r dt none r₀ hne hrl hconst
  unfold carlier
  rw [if_neg hne]
  simp only [carlierLoop, popMinQ]
  rw [if_neg (by simp [lbGeBest])]
  simp only [Option.map]
  simp only [hit, hL]
  rw [if_pos (by simp [latLtBest])]
  cases f with
  | zero => simp [carlierLoop, popMinQ, exitBest]
  | succ g => simp [carlierLoop, popMinQ, exitBest]

/-- Witness for C4's theorem: a single job with `r = [0]`. -/
theorem schrage_optimal_const_release_witness :
    carlier 1 [1] [0] [0] = .ok (schrage [1] [0] [0]) :=
  schrage_optimal_const_release 0 [1] [0] [0] 0 (by decide) (by decide)
    (by decide)

/-! ## C9: shift invariance -/

/-- Add a constant to every entry of a time array. -/
def shiftT (Δ : Time) (l : List Time) : List Time := l.map (fun x => x + Δ)

/-- Shift a run's start time. -/
def shiftRun (Δ : Time) (run : JobRun) : JobRun :=
  { run with time := run.time + Δ }

/-- Shift every start time of a schedule. -/
def shiftSched (Δ : Time) (s : JobSchedule) : JobSchedule :=
  ⟨s.schedule.map (shiftRun Δ)⟩

/-- The effect of shifting the due times on a ready-heap key. -/
def shiftKey (Δ : Time) : Int × Int × Nat → Int × Int × Nat
  | (a, b, c) => (a - Δ, b, c)

/-- Shift a subproblem node's arrays. -/
def shiftNode (Δ : Time) (n : CarlierNode) : CarlierNode :=
  ⟨shiftT Δ n.release_times, shiftT Δ n.due_times⟩

/-- Shift a queue entry (the inherited bound is lateness-valued: unchanged). -/
def shiftEntry (Δ : Time) (e : Option Time × CarlierNode) :
    Option Time × CarlierNode :=
  (e.1, shiftNode Δ e.2)

/-- Shift an incumbent. -/
def shiftBest (Δ : Time) (b : Option (Time × JobSchedule)) :
    Option (Time × JobSchedule) :=
  b.map (fun p => (p.1, shiftSched Δ p.2))

/-- Shift a carlier outcome. -/
def shiftOut (Δ : Time) : CarlierOut → CarlierOut
  | .ok s => .ok (shiftSched Δ s)
  | .panic => .panic
  | .timeout => .timeout

lemma shiftT_length (Δ : Time) (l : List Time) : (shiftT Δ l).length = l.length :=
  List.length_map l _

lemma idx_shift (Δ : Time) (l : List Time) (j : JobId) (h : j < l.length) :
    idx (shiftT Δ l) j = idx l j + Δ := by
  unfold idx shiftT
  rw [List.getD_eq_getElem _ 0 (by simpa using h), List.getD_eq_getElem _ 0 h]
  simp

lemma shiftT_zero (l : List Time) : shiftT 0 l = l := by
  unfold shiftT
  simp

lemma keyLe_shift (Δ : Time) (x y : Int × Int × Nat) :
    keyLe (shiftKey Δ x) (shiftKey Δ y) = keyLe x y := by
  obtain ⟨a₁, b₁, c₁⟩ := x
  obtain ⟨a₂, b₂, c₂⟩ := y
  rw [Bool.eq_iff_iff]
  simp only [keyLe, shiftKey, Bool.or_eq_true, Bool.and_eq_true, decide_eq_true_eq]
  constructor
  · intro h; omega
  · intro h; omega

lemma readyKey_shift (pt dt : List Time) (Δ : Time) (j : JobId) (h : j < dt.length) :
    readyKey pt (shiftT Δ dt) j = shiftKey Δ (readyKey pt dt j) := by
  have hneg : -(idx dt j + Δ) = -idx dt j - Δ := by ring
  simp only [readyKey, shiftKey, idx_shift Δ dt j h, hneg]

lemma popMax_shift (Δ : Time) : ∀ (l : List (Int × Int × Nat)),
    popMax (l.map (shiftKey Δ)) =
      Option.map (fun p => (shiftKey Δ p.1, p.2.map (shiftKey Δ))) (popMax l) := by
  intro l
  induction l with
  | nil => rfl
  | cons x xs ih =>
    simp only [List.map_cons, popMax, ih]
    cases hx : popMax xs with
    | none =>
      rfl
    | some p =>
      obtain ⟨m, rest⟩ := p
      simp only [Option.map_some', keyLe_shift]
      by_cases hk : keyLe x m
      · rw [if_pos hk, if_pos hk]
        rfl
      · rw [if_neg hk, if_neg hk]
        rfl

lemma takeWhile_congr_mem {p q : JobId → Bool} : ∀ {l : List JobId},
    (∀ x ∈ l, p x = q x) → l.takeWhile p = l.takeWhile q := by
  intro l
  induction l with
  | nil => intro _; rfl
  | cons x xs ih =>
    intro h
    have hx := h x (List.mem_cons_self x xs)
    by_cases hp : p x
    · rw [List.takeWhile_cons_of_pos hp, List.takeWhile_cons_of_pos (hx ▸ hp),
        ih (fun y hy => h y (List.mem_cons_of_mem x hy))]
    · rw [List.takeWhile_cons_of_neg hp, List.takeWhile_cons_of_neg (hx ▸ hp)]

lemma dropWhile_congr_mem {p q : JobId → Bool} : ∀ {l : List JobId},
    (∀ x ∈ l, p x = q x) → l.dropWhile p = l.dropWhile q := by
  intro l
  induction l with
  | nil => intro _; rfl
  | cons x xs ih =>
    intro h
    have hx := h x (List.mem_cons_self x xs)
    by_cases hp : p x
    · rw [List.dropWhile_cons_of_pos hp, List.dropWhile_cons_of_pos (hx ▸ hp),
        ih (fun y hy => h y (List.mem_cons_of_mem x hy))]
    · rw [List.dropWhile_cons_of_neg hp, List.dropWhile_cons_of_neg (hx ▸ hp)]

lemma mem_of_mem_takeWhile {p : JobId → Bool} {l : List JobId} {x : JobId}
    (h : x ∈ l.takeWhile p) : x ∈ l :=
  (List.takeWhile_sublist p).mem h

lemma mem_of_mem_dropWhile {p : JobId → Bool} {l : List JobId} {x : JobId}
    (h : x ∈ l.dropWhile p) : x ∈ l :=
  (List.dropWhile_sublist p).mem h

lemma map_readyKey_shift (pt dt : List Time) (Δ : Time) (l : List JobId)
    (hl : ∀ x ∈ l, x < dt.length) :
    l.map (readyKey pt (shiftT Δ dt)) = (l.map (readyKey pt dt)).map (shiftKey Δ) := by
  rw [List.map_map]
  exact List.map_congr_left (fun x hx => readyKey_shift pt dt Δ x (hl x hx))

/-- Aligned states: once the shifted run's clock is the original's plus `Δ`,
the two Schrage loops produce identical orders. -/
lemma schrageLoop_shift (pt r dt : List Time) (Δ : Time) :
    ∀ (fuel : Nat) (pending : List JobId) (ready : List (Int × Int × Nat)) (t : Time),
    (∀ j ∈ pending, j < r.length ∧ j < dt.length) →
    schrageLoop pt (shiftT Δ r) (shiftT Δ dt) fuel pending
        (ready.map (shiftKey Δ)) (t + Δ)
      = schrageLoop pt r dt fuel pending ready t := by
  intro fuel
  induction fuel with
  | zero => intro pending ready t _; rfl
  | succ f ih =>
    intro pending ready t hb
    have hpred : ∀ x ∈ pending,
        (decide (idx (shiftT Δ r) x ≤ t + Δ)) = (decide (idx r x ≤ t)) := by
      intro x hx
      rw [idx_shift Δ r x (hb x hx).1, decide_eq_decide]
      exact add_le_add_iff_right Δ
    simp only [schrageLoop]
    rw [takeWhile_congr_mem hpred, dropWhile_congr_mem hpred]
    rw [map_readyKey_shift pt dt Δ (pending.takeWhile fun j => idx r j ≤ t)
      (fun x hx => (hb x (mem_of_mem_takeWhile hx)).2)]
    rw [← List.map_append, popMax_shift]
    cases hp : popMax (ready ++ (pending.takeWhile fun j => idx r j ≤ t).map
        (readyKey pt dt)) with
    | some p =>
      obtain ⟨m, rest⟩ := p
      simp only [Option.map_some']
      have h22 : (shiftKey Δ m).2.2 = m.2.2 := by
        obtain ⟨a, b, c⟩ := m; rfl
      rw [h22]
      congr 1
      have ht : t + Δ + idx pt m.2.2 = (t + idx pt m.2.2) + Δ := by ring
      rw [ht]
      exact ih _ rest _ (fun x hx => hb x (mem_of_mem_dropWhile hx))
    | none =>
      simp only [Option.map_none']
      cases hpend : pending.dropWhile (fun j => idx r j ≤ t) with
      | nil => rfl
      | cons j tl =>
        have hjmem : j ∈ pending :=
          mem_of_mem_dropWhile (hpend ▸ List.mem_cons_self j tl)
        change (match popMax (List.map (readyKey pt (shiftT Δ dt))
            (List.takeWhile (fun j' => idx (shiftT Δ r) j' ≤ idx (shiftT Δ r) j)
              (j :: tl))) with
          | some (m, rest) => m.2.2 :: schrageLoop pt (shiftT Δ r) (shiftT Δ dt) f
              (List.dropWhile (fun j' => idx (shiftT Δ r) j' ≤ idx (shiftT Δ r) j)
                (j :: tl)) rest (idx (shiftT Δ r) j + idx pt m.2.2)
          | none => []) =
          (match popMax (List.map (readyKey pt dt)
            (List.takeWhile (fun j' => idx r j' ≤ idx r j) (j :: tl))) with
          | some (m, rest) => m.2.2 :: schrageLoop pt r dt f
              (List.dropWhile (fun j' => idx r j' ≤ idx r j) (j :: tl)) rest
              (idx r j + idx pt m.2.2)
          | none => [])
        rw [idx_shift Δ r j (hb j hjmem).1]
        have hpred2 : ∀ x ∈ j :: tl,
            (decide (idx (shiftT Δ r) x ≤ idx r j + Δ)) =
              (decide (idx r x ≤ idx r j)) := by
          intro x hx
          have hxp : x ∈ pending := mem_of_mem_dropWhile (hpend ▸ hx)
          rw [idx_shift Δ r x (hb x hxp).1, decide_eq_decide]
          exact add_le_add_iff_right Δ
        rw [takeWhile_congr_mem hpred2, dropWhile_congr_mem hpred2]
        rw [map_readyKey_shift pt dt Δ ((j :: tl).takeWhile fun j' => idx r j' ≤ idx r j)
          (fun x hx => (hb x (mem_of_mem_dropWhile
            (hpend ▸ mem_of_mem_takeWhile hx))).2)]
        rw [popMax_shift]
        cases hp2 : popMax (((j :: tl).takeWhile fun j' => idx r j' ≤ idx r j).map
            (readyKey pt dt)) with
        | none => rfl
        | some p2 =>
          obtain ⟨m, rest⟩ := p2
          simp only [Option.map_some']
          have h22 : (shiftKey Δ m).2.2 = m.2.2 := by
            obtain ⟨a, b, c⟩ := m; rfl
          rw [h22]
          congr 1
          have ht : idx r j + Δ + idx pt m.2.2 = (idx r j + idx pt m.2.2) + Δ := by
            ring
          rw [ht]
          refine ih _ rest _ ?_
          intro x hx
          exact hb x (mem_of_mem_dropWhile (hpend ▸ mem_of_mem_dropWhile hx))

lemma schrageJump_shift (pt r dt : List Time) (Δ : Time) (f : Nat) (j : JobId)
    (tl : List JobId)
    (hb : ∀ x ∈ j :: tl, x < r.length ∧ x < dt.length) :
    (match popMax (List.map (readyKey pt (shiftT Δ dt))
        (List.takeWhile (fun j' => idx (shiftT Δ r) j' ≤ idx (shiftT Δ r) j)
          (j :: tl))) with
      | some (m, rest) => m.2.2 :: schrageLoop pt (shiftT Δ r) (shiftT Δ dt) f
          (List.dropWhile (fun j' => idx (shiftT Δ r) j' ≤ idx (shiftT Δ r) j)
            (j :: tl)) rest (idx (shiftT Δ r) j + idx pt m.2.2)
      | none => []) =
    (match popMax (List.map (readyKey pt dt)
        (List.takeWhile (fun j' => idx r j' ≤ idx r j) (j :: tl))) with
      | some (m, rest) => m.2.2 :: schrageLoop pt r dt f
          (List.dropWhile (fun j' => idx r j' ≤ idx r j) (j :: tl)) rest
          (idx r j + idx pt m.2.2)
      | none => []) := by
  rw [idx_shift Δ r j (hb j (List.mem_cons_self j tl)).1]
  have hpred2 : ∀ x ∈ j :: tl,
      (decide (idx (shiftT Δ r) x ≤ idx r j + Δ)) =
        (decide (idx r x ≤ idx r j)) := by
    intro x hx
    rw [idx_shift Δ r x (hb x hx).1, decide_eq_decide]
    exact add_le_add_iff_right Δ
  rw [takeWhile_congr_mem hpred2, dropWhile_congr_mem hpred2]
  rw [map_readyKey_shift pt dt Δ _ (fun x hx => (hb x (mem_of_mem_takeWhile hx)).2)]
  rw [popMax_shift]
  cases hp2 : popMax (((j :: tl).takeWhile fun j' => idx r j' ≤ idx r j).map
      (readyKey pt dt)) with
  | none => rfl
  | some p2 =>
    obtain ⟨m, rest⟩ := p2
    simp only [Option.map_some']
    have h22 : (shiftKey Δ m).2.2 = m.2.2 := by
      obtain ⟨a, b, c⟩ := m; rfl
    rw [h22]
    congr 1
    have ht : idx r j + Δ + idx pt m.2.2 = (idx r j + idx pt m.2.2) + Δ := by ring
    rw [ht]
    exact schrageLoop_shift pt r dt Δ f _ rest _
      (fun x hx => hb x (mem_of_mem_dropWhile hx))

lemma takeWhile_nil_of_all_neg {p : JobId → Bool} {l : List JobId}
    (h : ∀ x ∈ l, p x = false) : l.takeWhile p = [] := by
  cases l with
  | nil => rfl
  | cons x xs =>
    rw [List.takeWhile_cons_of_neg]
    simp [h x (List.mem_cons_self x xs)]

lemma dropWhile_self_of_all_neg {p : JobId → Bool} {l : List JobId}
    (h : ∀ x ∈ l, p x = false) : l.dropWhile p = l := by
  cases l with
  | nil => rfl
  | cons x xs =>
    rw [List.dropWhile_cons_of_neg]
    simp [h x (List.mem_cons_self x xs)]

/-- The two Schrage loops coincide from the start of time: with non-negative
release times and `Δ ≥ 0`, the shifted run's initial idle phase jumps to the
first release and the runs align. -/
lemma schrageLoop_shift_init (pt r dt : List Time) (Δ : Time)
    (hΔ : 0 ≤ Δ) (hr0 : ∀ x ∈ r, 0 ≤ x) (fuel : Nat) (pending : List JobId)
    (hb : ∀ j ∈ pending, j < r.length ∧ j < dt.length) :
    schrageLoop pt (shiftT Δ r) (shiftT Δ dt) fuel pending [] 0
      = schrageLoop pt r dt fuel pending [] 0 := by
  rcases eq_or_lt_of_le hΔ with hΔ0 | hΔpos
  · rw [← hΔ0, shiftT_zero, shiftT_zero]
  · have hnonneg : ∀ x ∈ pending, 0 ≤ idx r x := by
      intro x hx
      have hxr : x < r.length := (hb x hx).1
      have hmem : idx r x ∈ r := by
        unfold idx
        rw [List.getD_eq_getElem r 0 hxr]
        exact List.getElem_mem hxr
      exact hr0 _ hmem
    cases fuel with
    | zero => rfl
    | succ f =>
      have hfalse : ∀ x ∈ pending,
          (decide (idx (shiftT Δ r) x ≤ (0 : Time))) = false := by
        intro x hx
        rw [idx_shift Δ r x (hb x hx).1]
        simp only [decide_eq_false_iff_not, not_le]
        have := hnonneg x hx
        linarith
      simp only [schrageLoop]
      rw [takeWhile_nil_of_all_neg hfalse, dropWhile_self_of_all_neg hfalse]
      simp only [List.map_nil, List.append_nil, List.nil_append, popMax]
      cases pending with
      | nil => rfl
      | cons j tl =>
        simp only []
        by_cases hj0 : idx r j ≤ (0 : Time)
        · have hj00 : idx r j = 0 :=
            le_antisymm hj0 (hnonneg j (List.mem_cons_self j tl))
          rw [schrageJump_shift pt r dt Δ f j tl hb]
          have htw : (j :: tl).takeWhile (fun j' => idx r j' ≤ idx r j)
              = (j :: tl).takeWhile (fun j' => idx r j' ≤ (0 : Time)) :=
            takeWhile_congr_mem (fun x _ => by rw [hj00])
          have hdw : (j :: tl).dropWhile (fun j' => idx r j' ≤ idx r j)
              = (j :: tl).dropWhile (fun j' => idx r j' ≤ (0 : Time)) :=
            dropWhile_congr_mem (fun x _ => by rw [hj00])
          simp only [htw, hdw, hj00]
          have hrel1 : (j :: tl).takeWhile (fun j' => idx r j' ≤ (0 : Time))
              = j :: tl.takeWhile (fun j' => idx r j' ≤ (0 : Time)) := by
            rw [List.takeWhile_cons_of_pos]
            simp [hj0]
          cases hpR : popMax (((j :: tl).takeWhile
              (fun j' => idx r j' ≤ (0 : Time))).map (readyKey pt dt)) with
          | none =>
            exfalso
            have h1 := popMax_eq_none.mp hpR
            rw [hrel1] at h1
            simp at h1
          | some pR =>
            obtain ⟨m, rest⟩ := pR
            rfl
        · have htw0 : (j :: tl).takeWhile (fun j' => idx r j' ≤ (0 : Time)) = [] := by
            rw [List.takeWhile_cons_of_neg]
            simp [hj0]
          have hdw0 : (j :: tl).dropWhile (fun j' => idx r j' ≤ (0 : Time))
              = j :: tl := by
            rw [List.dropWhile_cons_of_neg]
            simp [hj0]
          rw [htw0, hdw0]
          exact schrageJump_shift pt r dt Δ f j tl hb

lemma insertPending_shift (r : List Time) (Δ : Time) :
    ∀ (l : List JobId) (j : JobId), j < r.length → (∀ k ∈ l, k < r.length) →
    insertPending (shiftT Δ r) j l = insertPending r j l := by
  intro l
  induction l with
  | nil => intro j _ _; rfl
  | cons k ks ih =>
    intro j hj hk
    simp only [insertPending, idx_shift Δ r j hj,
      idx_shift Δ r k (hk k (List.mem_cons_self k ks)), add_lt_add_iff_right,
      add_left_inj]
    split
    · rfl
    · exact congrArg (fun l => k :: l)
        (ih j hj (fun x hx => hk x (List.mem_cons_of_mem k hx)))

lemma sortPending_shift (r : List Time) (Δ : Time) :
    ∀ (l : List JobId), (∀ k ∈ l, k < r.length) →
    sortPending (shiftT Δ r) l = sortPending r l := by
  intro l
  induction l with
  | nil => intro _; rfl
  | cons j js ih =>
    intro hk
    simp only [sortPending]
    rw [ih (fun x hx => hk x (List.mem_cons_of_mem j hx))]
    apply insertPending_shift r Δ _ j (hk j (List.mem_cons_self j js))
    intro x hx
    exact hk x (List.mem_cons_of_mem j (mem_sortPending.mp hx))

lemma buildRuns_shift_aligned (pt r : List Time) (Δ : Time) :
    ∀ (order : List JobId) (t : Time), (∀ j ∈ order, j < r.length) →
    buildRuns pt (shiftT Δ r) order (t + Δ)
      = (buildRuns pt r order t).map (shiftRun Δ) := by
  intro order
  induction order with
  | nil => intro t _; rfl
  | cons j rest ih =>
    intro t hb
    simp only [buildRuns, List.map_cons]
    rw [idx_shift Δ r j (hb j (List.mem_cons_self j rest))]
    have hmax : max (t + Δ) (idx r j + Δ) = max t (idx r j) + Δ := by
      rw [max_add_add_right]
    rw [hmax]
    congr 1
    have ht : max t (idx r j) + Δ + idx pt j = (max t (idx r j) + idx pt j) + Δ := by
      ring
    rw [ht]
    exact ih _ (fun x hx => hb x (List.mem_cons_of_mem j hx))

lemma buildRuns_shift_zero (pt r : List Time) (Δ : Time) (hΔ : 0 ≤ Δ)
    (hr0 : ∀ x ∈ r, 0 ≤ x) :
    ∀ (order : List JobId), (∀ j ∈ order, j < r.length) →
    buildRuns pt (shiftT Δ r) order 0
      = (buildRuns pt r order 0).map (shiftRun Δ) := by
  intro order
  cases order with
  | nil => intro _; rfl
  | cons j rest =>
    intro hb
    have hjr : j < r.length := hb j (List.mem_cons_self j rest)
    have hj0 : 0 ≤ idx r j := by
      have hmem : idx r j ∈ r := by
        unfold idx
        rw [List.getD_eq_getElem r 0 hjr]
        exact List.getElem_mem hjr
      exact hr0 _ hmem
    simp only [buildRuns, List.map_cons]
    rw [idx_shift Δ r j hjr]
    have hmax1 : max (0 : Time) (idx r j + Δ) = idx r j + Δ := by
      rw [max_eq_right]
      linarith
    have hmax2 : max (0 : Time) (idx r j) = idx r j := by
      rw [max_eq_right hj0]
    rw [hmax1, hmax2]
    congr 1
    have ht : idx r j + Δ + idx pt j = (idx r j + idx pt j) + Δ := by ring
    rw [ht]
    exact buildRuns_shift_aligned pt r Δ rest _
      (fun x hx => hb x (List.mem_cons_of_mem j hx))

lemma schrageLoop_mem (pt r dt : List Time) :
    ∀ (fuel : Nat) (pending : List JobId) (ready : List (Int × Int × Nat)) (t : Time),
    ∀ j ∈ schrageLoop pt r dt fuel pending ready t,
      j ∈ pending ∨ ∃ x ∈ ready, x.2.2 = j := by
  intro fuel
  induction fuel with
  | zero => intro pending ready t j hj; simp [schrageLoop] at hj
  | succ f ih =>
    intro pending ready t j hj
    simp only [schrageLoop] at hj
    cases hp : popMax (ready ++ (pending.takeWhile fun x => idx r x ≤ t).map
        (readyKey pt dt)) with
    | some p =>
      obtain ⟨m, rest⟩ := p
      rw [hp] at hj
      simp only [] at hj
      rcases List.mem_cons.mp hj with hj | hj
      · have hm := popMax_mem hp
        rcases List.mem_append.mp hm with hm | hm
        · exact Or.inr ⟨m, hm, hj.symm⟩
        · obtain ⟨x, hx, hxm⟩ := List.mem_map.mp hm
          left
          have : m.2.2 = x := by rw [← hxm]; rfl
          rw [hj, this]
          exact mem_of_mem_takeWhile hx
      · rcases ih _ rest _ j hj with hj' | ⟨x, hx, hxj⟩
        · exact Or.inl (mem_of_mem_dropWhile hj')
        · have hxr := popMax_rest_mem hp x hx
          rcases List.mem_append.mp hxr with hm | hm
          · exact Or.inr ⟨x, hm, hxj⟩
          · obtain ⟨y, hy, hyx⟩ := List.mem_map.mp hm
            left
            have : x.2.2 = y := by rw [← hyx]; rfl
            rw [← hxj, this]
            exact mem_of_mem_takeWhile hy
    | none =>
      rw [hp] at hj
      simp only [] at hj
      cases hpend : pending.dropWhile (fun x => idx r x ≤ t) with
      | nil => rw [hpend] at hj; simp at hj
      | cons k tl =>
        rw [hpend] at hj
        simp only [] at hj
        cases hp2 : popMax (((k :: tl).takeWhile fun x => idx r x ≤ idx r k).map
            (readyKey pt dt)) with
        | none => rw [hp2] at hj; simp at hj
        | some p2 =>
          obtain ⟨m, rest⟩ := p2
          rw [hp2] at hj
          simp only [] at hj
          rcases List.mem_cons.mp hj with hj | hj
          · have hm := popMax_mem hp2
            obtain ⟨x, hx, hxm⟩ := List.mem_map.mp hm
            left
            have : m.2.2 = x := by rw [← hxm]; rfl
            rw [hj, this]
            exact mem_of_mem_dropWhile (hpend ▸ mem_of_mem_takeWhile hx)
          · rcases ih _ rest _ j hj with hj' | ⟨x, hx, hxj⟩
            · exact Or.inl (mem_of_mem_dropWhile
                (hpend ▸ mem_of_mem_dropWhile hj'))
            · have hxr := popMax_rest_mem hp2 x hx
              obtain ⟨y, hy, hyx⟩ := List.mem_map.mp hxr
              left
              have : x.2.2 = y := by rw [← hyx]; rfl
              rw [← hxj, this]
              exact mem_of_mem_dropWhile (hpend ▸ mem_of_mem_takeWhile hy)

lemma schrage_jobs_lt (pt r dt : List Time) :
    ∀ run ∈ (schrage pt r dt).schedule, run.job < pt.length := by
  intro run hrun
  have hjob : run.job ∈ ((schrage pt r dt).schedule.map (fun x => x.job)) :=
    List.mem_map_of_mem _ hrun
  rw [show (schrage pt r dt).schedule = buildRuns pt r
      (schrageLoop pt r dt (2 * pt.length + 1)
        (sortPending r (List.range pt.length)) [] 0) 0 from rfl,
    buildRuns_map_job] at hjob
  rcases schrageLoop_mem pt r dt _ _ _ _ _ hjob with hm | ⟨x, hx, -⟩
  · exact List.mem_range.mp (mem_sortPending.mp hm)
  · simp at hx

/-- Schrage commutes with shifting all release and due times by `Δ ≥ 0`
(for non-negative release times): the order is unchanged and every start is
shifted. -/
lemma schrage_shift (pt r dt : List Time) (Δ : Time) (hΔ : 0 ≤ Δ)
    (hr0 : ∀ x ∈ r, 0 ≤ x) (hrl : r.length = pt.length)
    (hdl : dt.length = pt.length) :
    schrage pt (shiftT Δ r) (shiftT Δ dt) = shiftSched Δ (schrage pt r dt) := by
  unfold schrage from_order_durations_releasetimes shiftSched
  have hrangeb : ∀ k ∈ List.range pt.length, k < r.length := by
    intro k hk
    rw [hrl]
    exact List.mem_range.mp hk
  rw [sortPending_shift r Δ (List.range pt.length) hrangeb]
  have hordb : ∀ j ∈ sortPending r (List.range pt.length),
      j < r.length ∧ j < dt.length := by
    intro j hj
    have hjn := List.mem_range.mp (mem_sortPending.mp hj)
    exact ⟨by rw [hrl]; exact hjn, by rw [hdl]; exact hjn⟩
  rw [schrageLoop_shift_init pt r dt Δ hΔ hr0 _ _ hordb]
  have horder : ∀ j ∈ schrageLoop pt r dt (2 * pt.length + 1)
      (sortPending r (List.range pt.length)) [] 0, j < r.length := by
    intro j hj
    rcases schrageLoop_mem pt r dt _ _ _ _ _ hj with hm | ⟨x, hx, -⟩
    · rw [hrl]
      exact List.mem_range.mp (mem_sortPending.mp hm)
    · simp at hx
  exact congrArg JobSchedule.mk (buildRuns_shift_zero pt r Δ hΔ hr0 _ horder)

lemma lateness_shift (dt : List Time) (Δ : Time) (S : JobSchedule)
    (hb : ∀ run ∈ S.schedule, run.job < dt.length) :
    (shiftSched Δ S).lateness (shiftT Δ dt) = S.lateness dt := by
  unfold JobSchedule.lateness shiftSched
  congr 1
  rw [List.map_map]
  apply List.map_congr_left
  intro run hrun
  simp only [Function.comp, shiftRun]
  rw [idx_shift Δ dt run.job (hb run hrun)]
  ring

lemma find?_congr_mem {p q : Nat → Bool} : ∀ {l : List Nat},
    (∀ x ∈ l, p x = q x) → l.find? p = l.find? q := by
  intro l
  induction l with
  | nil => intro _; rfl
  | cons x xs ih =>
    intro h
    have hx := h x (List.mem_cons_self x xs)
    cases hq : q x with
    | true =>
      rw [List.find?_cons_of_pos xs (by rw [hx, hq]),
        List.find?_cons_of_pos xs hq]
    | false =>
      rw [List.find?_cons_of_neg xs (by rw [hx, hq]; simp),
        List.find?_cons_of_neg xs (by rw [hq]; simp)]
      exact ih (fun y hy => h y (List.mem_cons_of_mem x hy))

lemma getD_map_shiftRun (Δ : Time) (l : List JobRun) (i : Nat) (h : i < l.length) :
    (l.map (shiftRun Δ)).getD i dummyRun = shiftRun Δ (l.getD i dummyRun) := by
  rw [List.getD_eq_getElem _ _ (by simpa using h), List.getD_eq_getElem _ _ h]
  simp

lemma getD_map_shiftRun_job (Δ : Time) (l : List JobRun) (i : Nat) :
    ((l.map (shiftRun Δ)).getD i dummyRun).job = (l.getD i dummyRun).job := by
  by_cases h : i < l.length
  · rw [getD_map_shiftRun Δ l i h]
    rfl
  · rw [List.getD_eq_default _ _ (by simpa using not_lt.mp h),
      List.getD_eq_default _ _ (not_lt.mp h)]

lemma foldl_min_add (Δ : Time) : ∀ (l : List Time) (x : Time),
    (l.map (fun v => v + Δ)).foldl min (x + Δ) = l.foldl min x + Δ := by
  intro l
  induction l with
  | nil => intro x; rfl
  | cons y ys ih =>
    intro x
    simp only [List.map_cons, List.foldl_cons]
    rw [min_add_add_right, ih]

lemma min?_shift (Δ : Time) (l : List Time) :
    (l.map (fun v => v + Δ)).min? = l.min?.map (fun v => v + Δ) := by
  cases l with
  | nil => rfl
  | cons x xs =>
    show some ((xs.map (fun v => v + Δ)).foldl min (x + Δ))
      = Option.map (fun v => v + Δ) (some (xs.foldl min x))
    rw [foldl_min_add]
    rfl

lemma idx_nonneg (rt : List Time) (h : ∀ x ∈ rt, 0 ≤ x) (j : JobId) :
    0 ≤ idx rt j := by
  by_cases hj : j < rt.length
  · rw [show idx rt j = rt.getD j 0 from rfl, List.getD_eq_getElem rt 0 hj]
    exact h _ (List.getElem_mem hj)
  · rw [show idx rt j = rt.getD j 0 from rfl,
      List.getD_eq_default rt 0 (not_lt.mp hj)]

lemma runLateness_shift (dt : List Time) (Δ : Time) (run : JobRun)
    (h : run.job < dt.length) :
    runLateness (shiftT Δ dt) (shiftRun Δ run) = runLateness dt run := by
  unfold runLateness shiftRun
  simp only
  rw [idx_shift Δ dt run.job h]
  ring

lemma critical_path_p_lt (S : JobSchedule) (dt : List Time) (a p : Nat)
    (h : critical_path S dt = some (a, p)) : p < S.schedule.length := by
  simp only [critical_path] at h
  cases hmax : argmaxLast (S.schedule.map (runLateness dt)) with
  | none => rw [hmax] at h; exact Option.noConfusion h
  | some q =>
    obtain ⟨p', v⟩ := q
    rw [hmax] at h
    simp only [Option.some.injEq, Prod.mk.injEq] at h
    obtain ⟨-, hp⟩ := h
    subst hp
    have h1 := (argmaxLast_spec _ _ _ hmax).1
    simpa using h1

lemma critical_path_shift (S : JobSchedule) (dt : List Time) (Δ : Time)
    (hb : ∀ run ∈ S.schedule, run.job < dt.length) :
    critical_path (shiftSched Δ S) (shiftT Δ dt) = critical_path S dt := by
  have hmap : (shiftSched Δ S).schedule.map (runLateness (shiftT Δ dt))
      = S.schedule.map (runLateness dt) := by
    show (S.schedule.map (shiftRun Δ)).map (runLateness (shiftT Δ dt)) = _
    rw [List.map_map]
    apply List.map_congr_left
    intro run hrun
    exact runLateness_shift dt Δ run (hb run hrun)
  unfold critical_path
  rw [hmap]
  cases hmax : argmaxLast (S.schedule.map (runLateness dt)) with
  | none => rfl
  | some q =>
    obtain ⟨p, v⟩ := q
    have hp : p < S.schedule.length := by
      have h1 := (argmaxLast_spec _ _ _ hmax).1
      simpa using h1
    have hfind : (((List.range' 1 p).reverse).find? (fun i =>
        ((shiftSched Δ S).schedule.getD i dummyRun).time >
          ((shiftSched Δ S).schedule.getD (i - 1) dummyRun).time
            + ((shiftSched Δ S).schedule.getD (i - 1) dummyRun).duration))
      = (((List.range' 1 p).reverse).find? (fun i =>
        (S.schedule.getD i dummyRun).time >
          (S.schedule.getD (i - 1) dummyRun).time
            + (S.schedule.getD (i - 1) dummyRun).duration)) := by
      apply find?_congr_mem
      intro i hi
      have hi' : 1 ≤ i ∧ i < 1 + p := List.mem_range'_1.mp (List.mem_reverse.mp hi)
      have hil : i < S.schedule.length := by omega
      have hil' : i - 1 < S.schedule.length := by omega
      show decide _ = decide _
      rw [show (shiftSched Δ S).schedule = S.schedule.map (shiftRun Δ) from rfl,
        getD_map_shiftRun Δ _ i hil, getD_map_shiftRun Δ _ (i - 1) hil']
      simp only [shiftRun]
      apply decide_eq_decide.mpr
      constructor <;> intro hcmp <;> linarith
    simp only [hfind]

lemma gtUbAdd_shift (x y Δ : Time) (ub : Option Time) :
    gtUbAdd (x + Δ) ub (y + Δ) = gtUbAdd x ub y := by
  cases ub with
  | none => rfl
  | some u =>
    simp only [gtUbAdd]
    refine decide_eq_decide.mpr ?_
    constructor <;> intro h <;> linarith

lemma ascentStep_shift (pt : List Time) (ub : Option Time)
    (cb P Rm Dm Δ : Time) (rt dt : List Time) (j : JobId)
    (hr : j < rt.length) (hd : j < dt.length) :
    ascentStep pt ub cb P (Rm + Δ) (Dm + Δ) (shiftT Δ rt, shiftT Δ dt) j
      = (shiftT Δ (ascentStep pt ub cb P Rm Dm (rt, dt) j).1,
         shiftT Δ (ascentStep pt ub cb P Rm Dm (rt, dt) j).2) := by
  have hir : idx (shiftT Δ rt) j = idx rt j + Δ := idx_shift Δ rt j hr
  have hid : idx (shiftT Δ dt) j = idx dt j + Δ := idx_shift Δ dt j hd
  simp only [ascentStep, hir, hid]
  rw [show idx rt j + Δ + idx pt j + P = idx rt j + idx pt j + P + Δ from by ring,
    show Rm + Δ + P + idx pt j = Rm + P + idx pt j + Δ from by ring,
    gtUbAdd_shift, gtUbAdd_shift]
  have hmax : max (idx rt j + Δ) (Rm + Δ + P) = max (idx rt j) (Rm + P) + Δ := by
    rw [show Rm + Δ + P = Rm + P + Δ from by ring, max_add_add_right]
  have hmin : min (idx dt j + Δ) (Dm + Δ - P) = min (idx dt j) (Dm - P) + Δ := by
    rw [show Dm + Δ - P = Dm - P + Δ from by ring, min_add_add_right]
  rw [hmax, hmin]
  have hset1 : (shiftT Δ rt).set j (max (idx rt j) (Rm + P) + Δ)
      = shiftT Δ (rt.set j (max (idx rt j) (Rm + P))) := by
    show (rt.map (fun v => v + Δ)).set j _ = (rt.set j _).map _
    rw [List.map_set]
  have hset2 : (shiftT Δ dt).set j (min (idx dt j) (Dm - P) + Δ)
      = shiftT Δ (dt.set j (min (idx dt j) (Dm - P))) := by
    show (dt.map (fun v => v + Δ)).set j _ = (dt.set j _).map _
    rw [List.map_set]
  rw [hset1, hset2]
  cases h0 : gtUbSub (idx pt j) ub cb
  · rfl
  · cases h1 : gtUbAdd (idx rt j + idx pt j + P) ub Dm
    · cases h2 : gtUbAdd (Rm + P + idx pt j) ub (idx dt j)
      · rfl
      · rfl
    · rfl

lemma ascentFold_shift (pt : List Time) (ub : Option Time) (cb P Rm Dm Δ : Time) :
    ∀ (jobs : List JobId) (rt dt : List Time),
    (∀ j ∈ jobs, j < rt.length ∧ j < dt.length) →
    ascentFold pt ub cb P (Rm + Δ) (Dm + Δ) jobs (shiftT Δ rt, shiftT Δ dt)
      = (shiftT Δ (ascentFold pt ub cb P Rm Dm jobs (rt, dt)).1,
         shiftT Δ (ascentFold pt ub cb P Rm Dm jobs (rt, dt)).2) := by
  intro jobs
  induction jobs with
  | nil => intro rt dt _; rfl
  | cons x xs ih =>
    intro rt dt hb
    have hx := hb x (List.mem_cons_self x xs)
    simp only [ascentFold, List.foldl_cons]
    rw [ascentStep_shift pt ub cb P Rm Dm Δ rt dt x hx.1 hx.2]
    have hlen := ascentStep_length pt ub cb P Rm Dm (rt, dt) x
    have h1 := ih (ascentStep pt ub cb P Rm Dm (rt, dt) x).1
      (ascentStep pt ub cb P Rm Dm (rt, dt) x).2
      (fun j hj => ⟨by rw [hlen.1]; exact (hb j (List.mem_cons_of_mem x hj)).1,
        by rw [hlen.2]; exact (hb j (List.mem_cons_of_mem x hj)).2⟩)
    rw [Prod.mk.eta] at h1
    simpa only [ascentFold] using h1

lemma ascentFold_length (pt : List Time) (ub : Option Time) (cb P Rm Dm : Time) :
    ∀ (jobs : List JobId) (rt dt : List Time),
    (ascentFold pt ub cb P Rm Dm jobs (rt, dt)).1.length = rt.length ∧
    (ascentFold pt ub cb P Rm Dm jobs (rt, dt)).2.length = dt.length := by
  intro jobs
  induction jobs with
  | nil => intro rt dt; exact ⟨rfl, rfl⟩
  | cons x xs ih =>
    intro rt dt
    simp only [ascentFold, List.foldl_cons]
    have hlen := ascentStep_length pt ub cb P Rm Dm (rt, dt) x
    have h1 := ih (ascentStep pt ub cb P Rm Dm (rt, dt) x).1
      (ascentStep pt ub cb P Rm Dm (rt, dt) x).2
    rw [Prod.mk.eta] at h1
    simp only [ascentFold] at h1
    exact ⟨h1.1.trans hlen.1, h1.2.trans hlen.2⟩

lemma ascentStep_fst_nonneg (pt : List Time) (ub : Option Time)
    (cb P Rm Dm : Time) (rt dt : List Time) (j : JobId)
    (h : ∀ x ∈ rt, 0 ≤ x) :
    ∀ x ∈ (ascentStep pt ub cb P Rm Dm (rt, dt) j).1, 0 ≤ x := by
  simp only [ascentStep]
  split
  · split
    · intro x hx
      rcases List.mem_or_eq_of_mem_set hx with hm | he
      · exact h x hm
      · subst he
        exact le_trans (idx_nonneg rt h j) (le_max_left _ _)
    · split
      · exact h
      · exact h
  · exact h

lemma ascentFold_fst_nonneg (pt : List Time) (ub : Option Time)
    (cb P Rm Dm : Time) :
    ∀ (jobs : List JobId) (rt dt : List Time), (∀ x ∈ rt, 0 ≤ x) →
    ∀ x ∈ (ascentFold pt ub cb P Rm Dm jobs (rt, dt)).1, 0 ≤ x := by
  intro jobs
  induction jobs with
  | nil => intro rt dt h; exact h
  | cons y ys ih =>
    intro rt dt h
    simp only [ascentFold, List.foldl_cons]
    have h1 := ih (ascentStep pt ub cb P Rm Dm (rt, dt) y).1
      (ascentStep pt ub cb P Rm Dm (rt, dt) y).2
      (ascentStep_fst_nonneg pt ub cb P Rm Dm rt dt y h)
    rw [Prod.mk.eta] at h1
    simpa only [ascentFold] using h1

lemma listLt_shift (Δ : Time) : ∀ (a b : List Time),
    listLt (shiftT Δ a) (shiftT Δ b) = listLt a b := by
  intro a
  induction a with
  | nil => intro b; cases b <;> rfl
  | cons x xs ih =>
    intro b
    cases b with
    | nil => rfl
    | cons y ys =>
      show listLt ((x + Δ) :: shiftT Δ xs) ((y + Δ) :: shiftT Δ ys) = _
      simp only [listLt, ih]
      congr 1
      · refine decide_eq_decide.mpr ?_
        constructor <;> intro h <;> linarith
      · congr 1
        refine decide_eq_decide.mpr ?_
        constructor <;> intro h <;> linarith

lemma shiftT_inj (Δ : Time) (a b : List Time) :
    shiftT Δ a = shiftT Δ b ↔ a = b := by
  constructor
  · intro h
    have hinj : Function.Injective (fun v : Time => v + Δ) := by
      intro u v huv
      simpa using huv
    exact List.map_injective_iff.mpr hinj h
  · intro h
    rw [h]

lemma listLe_shift (Δ : Time) (a b : List Time) :
    listLe (shiftT Δ a) (shiftT Δ b) = listLe a b := by
  unfold listLe
  rw [listLt_shift]
  congr 1
  exact decide_eq_decide.mpr (shiftT_inj Δ a b)

lemma nodeLe_shift (Δ : Time) (n₁ n₂ : CarlierNode) :
    nodeLe (shiftNode Δ n₁) (shiftNode Δ n₂) = nodeLe n₁ n₂ := by
  simp only [nodeLe, shiftNode]
  rw [listLt_shift, listLe_shift]
  congr 1
  congr 1
  exact decide_eq_decide.mpr (shiftT_inj Δ _ _)

lemma entryLe_shift (Δ : Time) (e₁ e₂ : Option Time × CarlierNode) :
    entryLe (shiftEntry Δ e₁) (shiftEntry Δ e₂) = entryLe e₁ e₂ := by
  simp only [entryLe, shiftEntry]
  rw [nodeLe_shift]

lemma popMinQ_shift (Δ : Time) : ∀ (Q : List (Option Time × CarlierNode)),
    popMinQ (Q.map (shiftEntry Δ)) =
      Option.map (fun p => (shiftEntry Δ p.1, p.2.map (shiftEntry Δ))) (popMinQ Q) := by
  intro Q
  induction Q with
  | nil => rfl
  | cons x xs ih =>
    simp only [List.map_cons, popMinQ, ih]
    cases hx : popMinQ xs with
    | none =>
      rfl
    | some p =>
      obtain ⟨m, rest⟩ := p
      simp only [Option.map_some', entryLe_shift]
      by_cases hk : entryLe x m
      · rw [if_pos hk, if_pos hk]
        rfl
      · rw [if_neg hk, if_neg hk]
        rfl

lemma popMinQ_rest_mem : ∀ {Q : List (Option Time × CarlierNode)} {m rest},
    popMinQ Q = some (m, rest) → ∀ e ∈ rest, e ∈ Q := by
  intro Q
  induction Q with
  | nil => intro m rest h; exact absurd h (by simp [popMinQ])
  | cons x xs ih =>
    intro m rest h e he
    simp only [popMinQ] at h
    cases hx : popMinQ xs with
    | none =>
      rw [hx] at h
      simp only [Option.some.injEq, Prod.mk.injEq] at h
      obtain ⟨-, h2⟩ := h
      subst h2
      simp at he
    | some p =>
      obtain ⟨m', rest'⟩ := p
      rw [hx] at h
      simp only [] at h
      by_cases hk : entryLe x m'
      · rw [if_pos hk] at h
        simp only [Option.some.injEq, Prod.mk.injEq] at h
        obtain ⟨-, h2⟩ := h
        subst h2
        exact List.mem_cons_of_mem x he
      · rw [if_neg hk] at h
        simp only [Option.some.injEq, Prod.mk.injEq] at h
        obtain ⟨-, h2⟩ := h
        subst h2
        rcases List.mem_cons.mp he with he1 | he2
        · subst he1
          exact List.mem_cons_self _ _
        · exact List.mem_cons_of_mem x (ih hx e he2)

lemma popMinQ_mem : ∀ {Q : List (Option Time × CarlierNode)} {m rest},
    popMinQ Q = some (m, rest) → m ∈ Q := by
  intro Q
  induction Q with
  | nil => intro m rest h; exact absurd h (by simp [popMinQ])
  | cons x xs ih =>
    intro m rest h
    simp only [popMinQ] at h
    cases hx : popMinQ xs with
    | none =>
      rw [hx] at h
      simp only [Option.some.injEq, Prod.mk.injEq] at h
      obtain ⟨h1, -⟩ := h
      subst h1
      exact List.mem_cons_self x xs
    | some p =>
      obtain ⟨m', rest'⟩ := p
      rw [hx] at h
      simp only [] at h
      by_cases hk : entryLe x m'
      · rw [if_pos hk] at h
        simp only [Option.some.injEq, Prod.mk.injEq] at h
        obtain ⟨h1, -⟩ := h
        subst h1
        exact List.mem_cons_self x xs
      · rw [if_neg hk] at h
        simp only [Option.some.injEq, Prod.mk.injEq] at h
        obtain ⟨h1, -⟩ := h
        subst h1
        exact List.mem_cons_of_mem x (ih hx)

lemma lbGeBest_shift (Δ : Time) (lb : Option Time)
    (best : Option (Time × JobSchedule)) :
    lbGeBest lb (shiftBest Δ best) = lbGeBest lb best := by
  cases best with
  | none => cases lb <;> rfl
  | some p => obtain ⟨b, s⟩ := p; cases lb <;> rfl

lemma latLtBest_shift (Δ : Time) (lat : Time)
    (best : Option (Time × JobSchedule)) :
    latLtBest lat (shiftBest Δ best) = latLtBest lat best := by
  cases best with
  | none => rfl
  | some p => obtain ⟨b, s⟩ := p; rfl

lemma shiftBest_map_fst (Δ : Time) (best : Option (Time × JobSchedule)) :
    (shiftBest Δ best).map (·.1) = best.map (·.1) := by
  cases best with
  | none => rfl
  | some p => rfl

/-- Shift a `carlier_iteration` result: schedule start times and subproblem
arrays shift, the lower bound (a lateness value) is unchanged. -/
def shiftResult (Δ : Time) (res : CarlierResult) : CarlierResult :=
  { schedule := shiftSched Δ res.schedule,
    lower_bound := res.lower_bound,
    subproblems := res.subproblems.map (fun q => (shiftNode Δ q.1, shiftNode Δ q.2)) }

lemma ascentJobs_shift (Δ : Time) (l : List JobRun) (a c p : Nat) :
    ascentJobs (l.map (shiftRun Δ)) a c p = ascentJobs l a c p := by
  unfold ascentJobs
  rw [List.length_map]
  apply List.map_congr_left
  intro i _
  exact getD_map_shiftRun_job Δ l i

lemma carlier_iteration_shift (pt r dt : List Time) (ub : Option Time) (Δ : Time)
    (hΔ : 0 ≤ Δ) (hr0 : ∀ x ∈ r, 0 ≤ x) (hrl : r.length = pt.length)
    (hdl : dt.length = pt.length) :
    carlier_iteration pt (shiftT Δ r) (shiftT Δ dt) ub
      = (carlier_iteration pt r dt ub).map (shiftResult Δ) := by
  have hS : schrage pt (shiftT Δ r) (shiftT Δ dt) = shiftSched Δ (schrage pt r dt) :=
    schrage_shift pt r dt Δ hΔ hr0 hrl hdl
  set S := schrage pt r dt with hSdef
  have hjobs : ∀ run ∈ S.schedule, run.job < dt.length := by
    intro run hrun
    rw [hdl]
    exact schrage_jobs_lt pt r dt run hrun
  have hjr : ∀ run ∈ S.schedule, run.job < r.length := by
    intro run hrun
    rw [hrl]
    exact schrage_jobs_lt pt r dt run hrun
  have hcp' : critical_path (shiftSched Δ S) (shiftT Δ dt) = critical_path S dt :=
    critical_path_shift S dt Δ hjobs
  simp only [carlier_iteration, hS, hcp']
  cases hcp : critical_path S dt with
  | none => rfl
  | some ap =>
  obtain ⟨a, p⟩ := ap
  have hp : p < S.schedule.length := critical_path_p_lt S dt a p hcp
  have hgetmem : ∀ i, i < S.schedule.length → S.schedule.getD i dummyRun ∈ S.schedule := by
    intro i hi
    rw [List.getD_eq_getElem _ _ hi]
    exact List.getElem_mem hi
  have hfind : (((List.range' a (p - a)).reverse).find? (fun i =>
      idx (shiftT Δ dt) (((shiftSched Δ S).schedule.getD i dummyRun).job)
        > idx (shiftT Δ dt) (((shiftSched Δ S).schedule.getD p dummyRun).job)))
    = (((List.range' a (p - a)).reverse).find? (fun i =>
      idx dt ((S.schedule.getD i dummyRun).job)
        > idx dt ((S.schedule.getD p dummyRun).job))) := by
    apply find?_congr_mem
    intro i hi
    have hib := List.mem_range'_1.mp (List.mem_reverse.mp hi)
    have hilt : i < p := by omega
    have hil : i < S.schedule.length := lt_trans hilt hp
    show decide _ = decide _
    rw [show (shiftSched Δ S).schedule = S.schedule.map (shiftRun Δ) from rfl,
      getD_map_shiftRun_job, getD_map_shiftRun_job,
      idx_shift Δ dt _ (hjobs _ (hgetmem i hil)),
      idx_shift Δ dt _ (hjobs _ (hgetmem p hp))]
    refine decide_eq_decide.mpr ?_
    constructor <;> intro h <;> linarith
  simp only [hfind]
  cases hfd : (((List.range' a (p - a)).reverse).find? (fun i =>
      idx dt ((S.schedule.getD i dummyRun).job)
        > idx dt ((S.schedule.getD p dummyRun).job))) with
  | none =>
    have hlat : (shiftSched Δ S).lateness (shiftT Δ dt) = S.lateness dt :=
      lateness_shift dt Δ S hjobs
    simp only [hlat]
    cases hlt : S.lateness dt with
    | none => rfl
    | some l => rfl
  | some c =>
    have hcb := List.mem_range'_1.mp (List.mem_reverse.mp (List.mem_of_find?_eq_some hfd))
    have hcp' : c < p := by omega
    have hcl : c < S.schedule.length := lt_trans hcp' hp
    have hcjob : ((shiftSched Δ S).schedule.getD c dummyRun).job
        = (S.schedule.getD c dummyRun).job := getD_map_shiftRun_job Δ S.schedule c
    have hpjob : ((shiftSched Δ S).schedule.getD p dummyRun).job
        = (S.schedule.getD p dummyRun).job := getD_map_shiftRun_job Δ S.schedule p
    set cjob := (S.schedule.getD c dummyRun).job with hcjdef
    set pjob := (S.schedule.getD p dummyRun).job with hpjdef
    have hcjn : cjob < r.length := hjr _ (hgetmem c hcl)
    have hcjd : cjob < dt.length := hjobs _ (hgetmem c hcl)
    have hpjd : pjob < dt.length := hjobs _ (hgetmem p hp)
    set critRuns := (S.schedule.drop (c + 1)).take (p - c) with hcrdef
    have hcrit : (((shiftSched Δ S).schedule.drop (c + 1)).take (p - c))
        = critRuns.map (shiftRun Δ) := by
      show (((S.schedule.map (shiftRun Δ)).drop (c + 1)).take (p - c)) = _
      rw [← List.map_drop, ← List.map_take]
    have hcritmem : ∀ run ∈ critRuns, run ∈ S.schedule := by
      intro run hrun
      exact List.mem_of_mem_drop (List.mem_of_mem_take hrun)
    have hdur : (critRuns.map (shiftRun Δ)).map (fun run => run.duration)
        = critRuns.map (fun run => run.duration) := by
      rw [List.map_map]
      apply List.map_congr_left
      intro run _
      rfl
    have hrel : (critRuns.map (shiftRun Δ)).map (fun run => idx (shiftT Δ r) run.job)
        = (critRuns.map (fun run => idx r run.job)).map (fun v => v + Δ) := by
      rw [List.map_map, List.map_map]
      apply List.map_congr_left
      intro run hrun
      show idx (shiftT Δ r) (shiftRun Δ run).job = idx r run.job + Δ
      rw [show (shiftRun Δ run).job = run.job from rfl,
        idx_shift Δ r _ (hjr _ (hcritmem run hrun))]
    simp only [hcjob, hpjob, hcrit, hdur, hrel, min?_shift]
    cases hmin : (critRuns.map (fun run => idx r run.job)).min? with
    | none => rfl
    | some Rm =>
    simp only [Option.map_some']
    set cd := (critRuns.map (fun run => run.duration)).foldl (· + ·) 0 with hcddef
    have hcmd : idx (shiftT Δ dt) pjob = idx dt pjob + Δ := idx_shift Δ dt pjob hpjd
    set Dm := idx dt pjob with hDmdef
    have hcb' : cd + (Rm + Δ) - (Dm + Δ) = cd + Rm - Dm := by ring
    have hjbnd : ∀ j ∈ ascentJobs S.schedule a c p, j < r.length ∧ j < dt.length := by
      intro j hj
      rcases (mem_ascentJobs_iff _ _ _ _ _).mp hj with ⟨i, hi, hje⟩
      have hilen : i < S.schedule.length := by
        rcases hi with ⟨h1, h2⟩ | ⟨h1, h2⟩
        · omega
        · exact h2
      rw [← hje]
      exact ⟨hjr _ (hgetmem i hilen), hjobs _ (hgetmem i hilen)⟩
    have hfold := ascentFold_shift pt ub (cd + Rm - Dm) cd Rm Dm Δ
      (ascentJobs S.schedule a c p) r dt hjbnd
    set rd := ascentFold pt ub (cd + Rm - Dm) cd Rm Dm (ascentJobs S.schedule a c p)
      (r, dt) with hrddef
    have hrdlen := ascentFold_length pt ub (cd + Rm - Dm) cd Rm Dm
      (ascentJobs S.schedule a c p) r dt
    rw [← hrddef] at hrdlen
    have hidxr : idx (shiftT Δ rd.1) cjob = idx rd.1 cjob + Δ :=
      idx_shift Δ rd.1 cjob (by rw [hrdlen.1]; exact hcjn)
    have hidxd : idx (shiftT Δ rd.2) cjob = idx rd.2 cjob + Δ :=
      idx_shift Δ rd.2 cjob (by rw [hrdlen.2]; exact hcjd)
    have hidxdp : idx (shiftT Δ rd.2) pjob = idx rd.2 pjob + Δ :=
      idx_shift Δ rd.2 pjob (by rw [hrdlen.2]; exact hpjd)
    simp only [shiftSched, ascentJobs_shift, hcmd, hcb', hfold, ← hrddef,
      hidxr, hidxd, hidxdp]
    have hlb : cd + min (Rm + Δ) (idx rd.1 cjob + Δ) - (idx rd.2 cjob + Δ)
        = cd + min Rm (idx rd.1 cjob) - idx rd.2 cjob := by
      rw [min_add_add_right]
      ring
    have hmin1 : min (idx rd.2 cjob + Δ) (idx rd.2 pjob + Δ - cd)
        = min (idx rd.2 cjob) (idx rd.2 pjob - cd) + Δ := by
      rw [show idx rd.2 pjob + Δ - cd = idx rd.2 pjob - cd + Δ from by ring,
        min_add_add_right]
    have hmax2 : max (idx rd.1 cjob + Δ) (Rm + Δ + cd)
        = max (idx rd.1 cjob) (Rm + cd) + Δ := by
      rw [show Rm + Δ + cd = Rm + cd + Δ from by ring, max_add_add_right]
    have hset1 : (shiftT Δ rd.2).set cjob (min (idx rd.2 cjob) (idx rd.2 pjob - cd) + Δ)
        = shiftT Δ (rd.2.set cjob (min (idx rd.2 cjob) (idx rd.2 pjob - cd))) := by
      show (rd.2.map (fun v => v + Δ)).set cjob _ = (rd.2.set cjob _).map _
      rw [List.map_set]
    have hset2 : (shiftT Δ rd.1).set cjob (max (idx rd.1 cjob) (Rm + cd) + Δ)
        = shiftT Δ (rd.1.set cjob (max (idx rd.1 cjob) (Rm + cd))) := by
      show (rd.1.map (fun v => v + Δ)).set cjob _ = (rd.1.set cjob _).map _
      rw [List.map_set]
    simp only [hlb, hmin1, hmax2, hset1, hset2]
    rfl

lemma carlier_iteration_children (pt r dt : List Time) (ub : Option Time)
    (res : CarlierResult) (n1 n2 : CarlierNode)
    (h : carlier_iteration pt r dt ub = some res)
    (hsub : res.subproblems = some (n1, n2))
    (hr0 : ∀ x ∈ r, 0 ≤ x) (hrl : r.length = pt.length)
    (hdl : dt.length = pt.length) :
    (n1.release_times.length = pt.length ∧ n1.due_times.length = pt.length ∧
      ∀ x ∈ n1.release_times, 0 ≤ x) ∧
    (n2.release_times.length = pt.length ∧ n2.due_times.length = pt.length ∧
      ∀ x ∈ n2.release_times, 0 ≤ x) := by
  simp only [carlier_iteration] at h
  split at h
  · exact Option.noConfusion h
  · split at h
    · split at h
      · exact Option.noConfusion h
      · have hres := Option.some.inj h
        subst hres
        simp at hsub
    · split at h
      · exact Option.noConfusion h
      · have hres := Option.some.inj h
        subst hres
        simp only [Option.some.injEq, Prod.mk.injEq] at hsub
        obtain ⟨h1, h2⟩ := hsub
        subst h1
        subst h2
        refine ⟨⟨?_, ?_, ?_⟩, ⟨?_, ?_, ?_⟩⟩
        · exact ((ascentFold_length pt ub _ _ _ _ _ r dt).1).trans hrl
        · show (List.set _ _ _).length = pt.length
          rw [List.length_set]
          exact ((ascentFold_length pt ub _ _ _ _ _ r dt).2).trans hdl
        · exact ascentFold_fst_nonneg pt ub _ _ _ _ _ r dt hr0
        · show (List.set _ _ _).length = pt.length
          rw [List.length_set]
          exact ((ascentFold_length pt ub _ _ _ _ _ r dt).1).trans hrl
        · exact ((ascentFold_length pt ub _ _ _ _ _ r dt).2).trans hdl
        · intro x hx
          rcases List.mem_or_eq_of_mem_set hx with hm | he
          · exact ascentFold_fst_nonneg pt ub _ _ _ _ _ r dt hr0 x hm
          · subst he
            exact le_trans
              (idx_nonneg _ (ascentFold_fst_nonneg pt ub _ _ _ _ _ r dt hr0) _)
              (le_max_left _ _)

set_option maxHeartbeats 1600000 in
lemma carlierLoop_shift (pt d : List Time) (Δ : Time) (hΔ : 0 ≤ Δ)
    (hdl : d.length = pt.length) :
    ∀ (fuel : Nat) (Q : List (Option Time × CarlierNode))
      (best : Option (Time × JobSchedule)),
    (∀ e ∈ Q, e.2.release_times.length = pt.length ∧
      e.2.due_times.length = pt.length ∧ ∀ x ∈ e.2.release_times, 0 ≤ x) →
    carlierLoop pt (shiftT Δ d) fuel (Q.map (shiftEntry Δ)) (shiftBest Δ best)
      = shiftOut Δ (carlierLoop pt d fuel Q best) := by
  intro fuel
  induction fuel with
  | zero =>
    intro Q best hQ
    simp only [carlierLoop, popMinQ_shift]
    cases hpop : popMinQ Q with
    | none =>
      cases best with
      | none => rfl
      | some b => obtain ⟨l, s⟩ := b; rfl
    | some m => rfl
  | succ fuel ih =>
    intro Q best hQ
    simp only [carlierLoop, popMinQ_shift]
    cases hpop : popMinQ Q with
    | none =>
      cases best with
      | none => rfl
      | some b => obtain ⟨l, s⟩ := b; rfl
    | some m =>
      obtain ⟨⟨lb, node⟩, rest⟩ := m
      have hnodeInv := hQ _ (popMinQ_mem hpop)
      have hrest : ∀ e ∈ rest, e.2.release_times.length = pt.length ∧
          e.2.due_times.length = pt.length ∧ ∀ x ∈ e.2.release_times, 0 ≤ x :=
        fun e he => hQ e (popMinQ_rest_mem hpop e he)
      simp only [Option.map_some', shiftEntry, lbGeBest_shift]
      by_cases hprune : lbGeBest lb best
      · rw [if_pos hprune, if_pos hprune]
        exact ih rest best hrest
      · rw [if_neg hprune, if_neg hprune]
        have hiter := carlier_iteration_shift pt node.release_times node.due_times
          (best.map (·.1)) Δ hΔ hnodeInv.2.2 hnodeInv.1 hnodeInv.2.1
        rw [show (shiftNode Δ node).release_times = shiftT Δ node.release_times from rfl,
          show (shiftNode Δ node).due_times = shiftT Δ node.due_times from rfl,
          shiftBest_map_fst, hiter]
        cases hit : carlier_iteration pt node.release_times node.due_times
            (best.map (·.1)) with
        | none => rfl
        | some result =>
          simp only [Option.map_some']
          have hsch : result.schedule = schrage pt node.release_times node.due_times :=
            carlier_iteration_schedule _ _ _ _ _ hit
          have hlat : (shiftResult Δ result).schedule.lateness (shiftT Δ d)
              = result.schedule.lateness d := by
            show (shiftSched Δ result.schedule).lateness (shiftT Δ d) = _
            apply lateness_shift
            intro run hrun
            rw [hdl]
            rw [hsch] at hrun
            exact schrage_jobs_lt _ _ _ run hrun
          rw [show (shiftResult Δ result).schedule = shiftSched Δ result.schedule from rfl,
            show (shiftSched Δ result.schedule).lateness (shiftT Δ d)
              = result.schedule.lateness d from hlat]
          cases hl : result.schedule.lateness d with
          | none => rfl
          | some lateness =>
            simp only [latLtBest_shift]
            by_cases hbb : latLtBest lateness best
            · rw [if_pos hbb, if_pos hbb]
              have hbest1 : (some (lateness, shiftSched Δ result.schedule)
                    : Option (Time × JobSchedule))
                  = shiftBest Δ (some (lateness, result.schedule)) := rfl
              rw [hbest1]
              cases hsub : result.subproblems with
              | none =>
                rw [show (shiftResult Δ result).subproblems
                    = result.subproblems.map
                      (fun q => (shiftNode Δ q.1, shiftNode Δ q.2)) from rfl, hsub]
                exact ih rest (some (lateness, result.schedule)) hrest
              | some c12 =>
                obtain ⟨c1, c2⟩ := c12
                rw [show (shiftResult Δ result).subproblems
                    = result.subproblems.map
                      (fun q => (shiftNode Δ q.1, shiftNode Δ q.2)) from rfl, hsub]
                simp only [Option.map_some']
                rw [show (shiftResult Δ result).lower_bound = result.lower_bound from rfl,
                  latLtBest_shift]
                have hch := carlier_iteration_children _ _ _ _ _ _ _ hit hsub
                  hnodeInv.2.2 hnodeInv.1 hnodeInv.2.1
                by_cases hlb2 : latLtBest result.lower_bound
                    (some (lateness, result.schedule))
                · rw [if_pos hlb2, if_pos hlb2]
                  have hqeq : rest.map (shiftEntry Δ)
                      ++ [(lbMax result.lower_bound lb, shiftNode Δ c1),
                          (lbMax result.lower_bound lb, shiftNode Δ c2)]
                    = (rest ++ [(lbMax result.lower_bound lb, c1),
                        (lbMax result.lower_bound lb, c2)]).map (shiftEntry Δ) := by
                    rw [List.map_append]
                    rfl
                  rw [hqeq]
                  refine ih _ (some (lateness, result.schedule)) ?_
                  intro e he
                  rcases List.mem_append.mp he with he1 | he2
                  · exact hrest e he1
                  · rcases List.mem_cons.mp he2 with he3 | he4
                    · subst he3
                      exact hch.1
                    · rcases List.mem_cons.mp he4 with he5 | he6
                      · subst he5
                        exact hch.2
                      · simp at he6
                · rw [if_neg hlb2, if_neg hlb2]
                  exact ih rest (some (lateness, result.schedule)) hrest
            · rw [if_neg hbb, if_neg hbb]
              cases hsub : result.subproblems with
              | none =>
                rw [show (shiftResult Δ result).subproblems
                    = result.subproblems.map
                      (fun q => (shiftNode Δ q.1, shiftNode Δ q.2)) from rfl, hsub]
                exact ih rest best hrest
              | some c12 =>
                obtain ⟨c1, c2⟩ := c12
                rw [show (shiftResult Δ result).subproblems
                    = result.subproblems.map
                      (fun q => (shiftNode Δ q.1, shiftNode Δ q.2)) from rfl, hsub]
                simp only [Option.map_some']
                rw [show (shiftResult Δ result).lower_bound = result.lower_bound from rfl,
                  latLtBest_shift]
                have hch := carlier_iteration_children _ _ _ _ _ _ _ hit hsub
                  hnodeInv.2.2 hnodeInv.1 hnodeInv.2.1
                by_cases hlb2 : latLtBest result.lower_bound best
                · rw [if_pos hlb2, if_pos hlb2]
                  have hqeq : rest.map (shiftEntry Δ)
                      ++ [(lbMax result.lower_bound lb, shiftNode Δ c1),
                          (lbMax result.lower_bound lb, shiftNode Δ c2)]
                    = (rest ++ [(lbMax result.lower_bound lb, c1),
                        (lbMax result.lower_bound lb, c2)]).map (shiftEntry Δ) := by
                    rw [List.map_append]
                    rfl
                  rw [hqeq]
                  refine ih _ best ?_
                  intro e he
                  rcases List.mem_append.mp he with he1 | he2
                  · exact hrest e he1
                  · rcases List.mem_cons.mp he2 with he3 | he4
                    · subst he3
                      exact hch.1
                    · rcases List.mem_cons.mp he4 with he5 | he6
                      · subst he5
                        exact hch.2
                      · simp at he6
                · rw [if_neg hlb2, if_neg hlb2]
                  exact ih rest best hrest

lemma carlier_shift (fuel : Nat) (pt r dt : List Time) (Δ : Time) (hΔ : 0 ≤ Δ)
    (hr0 : ∀ x ∈ r, 0 ≤ x) (hrl : r.length = pt.length)
    (hdl : dt.length = pt.length) :
    carlier fuel pt (shiftT Δ r) (shiftT Δ dt) = shiftOut Δ (carlier fuel pt r dt) := by
  unfold carlier
  by_cases hpt : pt = []
  · rw [if_pos hpt, if_pos hpt]
    rfl
  · rw [if_neg hpt, if_neg hpt]
    rw [show ([((none : Option Time), (⟨shiftT Δ r, shiftT Δ dt⟩ : CarlierNode))])
        = ([((none : Option Time), (⟨r, dt⟩ : CarlierNode))]).map (shiftEntry Δ)
        from rfl,
      show (none : Option (Time × JobSchedule)) = shiftBest Δ none from rfl]
    refine carlierLoop_shift pt dt Δ hΔ hdl fuel _ none ?_
    intro e he
    rcases List.mem_cons.mp he with he1 | he2
    · subst he1
      exact ⟨hrl, hdl, hr0⟩
    · simp at he2

lemma carlierLoop_ok_jobs (pt d : List Time) :
    ∀ (fuel : Nat) (q : List (Option Time × CarlierNode))
      (best : Option (Time × JobSchedule)),
    (∀ l s, best = some (l, s) → ∀ run ∈ s.schedule, run.job < pt.length) →
    ∀ S, carlierLoop pt d fuel q best = .ok S →
    ∀ run ∈ S.schedule, run.job < pt.length := by
  intro fuel
  induction fuel with
  | zero =>
    intro q best hbest S h
    simp only [carlierLoop] at h
    cases hq : popMinQ q with
    | none =>
      simp only [hq] at h
      cases best with
      | none => exact absurd h (by simp [exitBest])
      | some b =>
        obtain ⟨l, s⟩ := b
        simp only [exitBest] at h
        cases h
        exact hbest _ _ rfl
    | some p =>
      simp only [hq] at h
      exact CarlierOut.noConfusion h
  | succ f ih =>
    intro q best hbest S h
    simp only [carlierLoop] at h
    cases hq : popMinQ q with
    | none =>
      simp only [hq] at h
      cases best with
      | none => exact absurd h (by simp [exitBest])
      | some b =>
        obtain ⟨l, s⟩ := b
        simp only [exitBest] at h
        cases h
        exact hbest _ _ rfl
    | some p =>
      obtain ⟨⟨lb, node⟩, rest⟩ := p
      simp only [hq] at h
      by_cases hpr : lbGeBest lb best
      · rw [if_pos hpr] at h
        exact ih rest best hbest S h
      · rw [if_neg hpr] at h
        cases hit : carlier_iteration pt node.release_times node.due_times
            (Option.map (fun x => x.1) best) with
        | none =>
          simp only [hit] at h
          exact CarlierOut.noConfusion h
        | some res =>
          simp only [hit] at h
          have hresjob : ∀ run ∈ res.schedule.schedule, run.job < pt.length := by
            intro run hrun
            rw [carlier_iteration_schedule _ _ _ _ _ hit] at hrun
            exact schrage_jobs_lt _ _ _ run hrun
          cases hlat : res.schedule.lateness d with
          | none =>
            simp only [hlat] at h
            exact CarlierOut.noConfusion h
          | some lat =>
            simp only [hlat] at h
            by_cases hup : latLtBest lat best
            · rw [if_pos hup] at h
              have hbest1 : ∀ l s, (some (lat, res.schedule)
                    : Option (Time × JobSchedule)) = some (l, s) →
                  ∀ run ∈ s.schedule, run.job < pt.length := by
                intro l s heq
                simp only [Option.some.injEq, Prod.mk.injEq] at heq
                rw [← heq.2]
                exact hresjob
              cases hsub : res.subproblems with
              | some ch =>
                obtain ⟨c1, c2⟩ := ch
                simp only [hsub] at h
                by_cases hpush : latLtBest res.lower_bound (some (lat, res.schedule))
                · rw [if_pos hpush] at h
                  exact ih _ _ hbest1 S h
                · rw [if_neg hpush] at h
                  exact ih _ _ hbest1 S h
              | none =>
                simp only [hsub] at h
                exact ih _ _ hbest1 S h
            · rw [if_neg hup] at h
              cases hsub : res.subproblems with
              | some ch =>
                obtain ⟨c1, c2⟩ := ch
                simp only [hsub] at h
                by_cases hpush : latLtBest res.lower_bound best
                · rw [if_pos hpush] at h
                  exact ih _ _ hbest S h
                · rw [if_neg hpush] at h
                  exact ih _ _ hbest S h
              | none =>
                simp only [hsub] at h
                exact ih _ _ hbest S h

lemma carlier_ok_jobs (fuel : Nat) (pt r dt : List Time) (S : JobSchedule)
    (h : carlier fuel pt r dt = .ok S) :
    ∀ run ∈ S.schedule, run.job < pt.length := by
  unfold carlier at h
  by_cases hpt : pt = []
  · rw [if_pos hpt] at h
    cases h
    intro run hrun
    simp at hrun
  · rw [if_neg hpt] at h
    exact carlierLoop_ok_jobs pt dt fuel _ none (by intro l s heq; cases heq) S h

/-- **C9** (corrected: the claim fails for negative `Δ` because the machine
clock always starts at absolute time `0`; it holds once `Δ ≥ 0` and all
original release times are non-negative, so that no start time is clamped by
the initial clock).  For well-formed arrays (`|r| = |d| = |p|`), shifting all
release and due times by `Δ ≥ 0` on a non-negatively released instance
shifts every start time of the `schrage` schedule by `Δ`, leaves its maximum
lateness (measured with the shifted due times) unchanged, maps every
`carlier` outcome — returned schedule, panic, or fuel exhaustion — to the
shifted outcome, and in particular shifts every returned `carlier` schedule
by `Δ` with unchanged maximum lateness. -/
theorem shift_invariance_nonneg (pt r dt : List Time) (Δ : Time) (hΔ : 0 ≤ Δ)
    (hr0 : ∀ x ∈ r, 0 ≤ x) (hrl : r.length = pt.length)
    (hdl : dt.length = pt.length) :
    schrage pt (shiftT Δ r) (shiftT Δ dt) = shiftSched Δ (schrage pt r dt) ∧
    (schrage pt (shiftT Δ r) (shiftT Δ dt)).lateness (shiftT Δ dt)
      = (schrage pt r dt).lateness dt ∧
    (∀ fuel, carlier fuel pt (shiftT Δ r) (shiftT Δ dt)
      = shiftOut Δ (carlier fuel pt r dt)) ∧
    (∀ fuel S, carlier fuel pt r dt = .ok S →
      carlier fuel pt (shiftT Δ r) (shiftT Δ dt) = .ok (shiftSched Δ S) ∧
      (shiftSched Δ S).lateness (shiftT Δ dt) = S.lateness dt) := by
  refine ⟨schrage_shift pt r dt Δ hΔ hr0 hrl hdl, ?_, ?_, ?_⟩
  · rw [schrage_shift pt r dt Δ hΔ hr0 hrl hdl]
    apply lateness_shift
    intro run hrun
    rw [hdl]
    exact schrage_jobs_lt pt r dt run hrun
  · intro fuel
    exact carlier_shift fuel pt r dt Δ hΔ hr0 hrl hdl
  · intro fuel S h
    constructor
    · rw [carlier_shift fuel pt r dt Δ hΔ hr0 hrl hdl, h]
      rfl
    · apply lateness_shift
      intro run hrun
      rw [hdl]
      exact carlier_ok_jobs fuel pt r dt S h run hrun

/-- Witness for C9's theorem on a concrete two-job instance shifted by
`Δ = 5`. -/
theorem shift_invariance_nonneg_witness :
    schrage [2,1] (shiftT 5 [1,0]) (shiftT 5 [3,2])
        = shiftSched 5 (schrage [2,1] [1,0] [3,2]) ∧
      (schrage [2,1] (shiftT 5 [1,0]) (shiftT 5 [3,2])).lateness (shiftT 5 [3,2])
        = (schrage [2,1] [1,0] [3,2]).lateness [3,2] ∧
      (∀ fuel, carlier fuel [2,1] (shiftT 5 [1,0]) (shiftT 5 [3,2])
        = shiftOut 5 (carlier fuel [2,1] [1,0] [3,2])) ∧
      (∀ fuel S, carlier fuel [2,1] [1,0] [3,2] = .ok S →
        carlier fuel [2,1] (shiftT 5 [1,0]) (shiftT 5 [3,2]) = .ok (shiftSched 5 S) ∧
        (shiftSched 5 S).lateness (shiftT 5 [3,2]) = S.lateness [3,2]) :=
  shift_invariance_nonneg [2,1] [1,0] [3,2] 5 (by decide) (by decide)
    (by decide) (by decide)

/-- Counterexample to C9 as stated (for "every constant `Δ`"): on the
single-job instance `p = [1]`, `r = [0]`, `d = [0]` with `Δ = -1`, both the
original and the shifted instance start the job at absolute time `0` (the
clock starts at `0`, so the `-1` release time is clamped), hence the shifted
schedule does *not* have its start time shifted by `Δ`, and its maximum
lateness under the shifted due times is `2`, not the original `1`. -/
theorem schrage_shift_negative_delta :
    schrage [1] (shiftT (-1) [0]) (shiftT (-1) [0])
      ≠ shiftSched (-1) (schrage [1] [0] [0]) ∧
    (schrage [1] (shiftT (-1) [0]) (shiftT (-1) [0])).lateness (shiftT (-1) [0])
      ≠ (schrage [1] [0] [0]).lateness [0] := by
  constructor <;> decide
